import Mathlib

/-!
# Verification of the Hyperlane off-chain agents against their specification

Shallow embedding of the relayer / validator / contract-sync code from the
`hyperlane-xyz` monorepo (Rust), together with proofs about the embedded
functions.  Each section names the source file and functions it embeds.

Conventions:
* machine integers (`u32`, `u64`, `u128`) are modelled as `Nat`; where wrap-on
  overflow is observable (`as u32` casts in byte encoding) an explicit
  `% 2 ^ 32` is applied;
* `H256` / `H160` addresses are modelled as `Nat`;
* fallible calls (`Result`) are modelled with `Option` / `Except Unit`, with
  `Option` used whenever the code treats an `Err` and a missing value
  identically (e.g. `if let Ok(Some(x)) = ...`);
* `Instant` / `Duration` are modelled as `Nat` seconds.
-/

namespace Hyperlane

/-! ## Pending message backoff
Embeds `agents/relayer/src/msg/pending_message.rs`. -/

/-- `PendingMessage::calculate_msg_backoff`: duration (in seconds) to wait
before re-attempting delivery, given the number of retries.  `none` means no
delay. -/
def calculate_msg_backoff (num_retries : Nat) : Option Nat :=
  if num_retries < 1 then none
  else if 1 ≤ num_retries ∧ num_retries < 12 then some 10
  else if 12 ≤ num_retries ∧ num_retries < 24 then some ((num_retries - 11) * 90)
  else if 24 ≤ num_retries ∧ num_retries < 36 then some (60 * 30)
  else if 36 ≤ num_retries ∧ num_retries < 48 then some (60 * 60)
  else some (60 * 60 * 3)

/-- State stored in `PendingMessage::submission_data`
(`SubmissionData { metadata, gas_limit }`). -/
structure SubmissionData where
  metadata : List Nat
  gas_limit : Nat
deriving Repr, DecidableEq

/-- The mutable state of a `PendingMessage` (the fields touched by
`prepare` / `submit` / `confirm`; the message itself and the shared context are
passed separately). -/
structure PendingMessageState where
  submitted : Bool
  submission_data : Option SubmissionData
  num_retries : Nat
  last_attempted_at : Nat
  next_attempt_after : Option Nat
deriving Repr, DecidableEq

/-- `PendingMessage::new` field defaults (`#[new(default)]` /
`#[new(value = "Instant::now()")]`). -/
def PendingMessageState.fresh (now : Nat) : PendingMessageState :=
  { submitted := false
    submission_data := none
    num_retries := 0
    last_attempted_at := now
    next_attempt_after := none }

/-- `PendingMessage::from_persisted_retries`: reads the stored retry count for
the message; on `Ok(Some(n))` it sets `num_retries := n` and
`next_attempt_after := now + backoff(n)`, otherwise it behaves like `new`.
`stored` models the result of
`retrieve_pending_message_retry_count_by_message_id`: `none` is an `Err`,
`some none` is `Ok(None)`, `some (some n)` is `Ok(Some(n))`. -/
def from_persisted_retries (now : Nat) (stored : Option (Option Nat)) :
    PendingMessageState :=
  match stored with
  | some (some n) =>
      { PendingMessageState.fresh now with
        num_retries := n
        next_attempt_after := (calculate_msg_backoff n).map (fun d => now + d) }
  | _ => PendingMessageState.fresh now

/-! ## GCS checkpoint store
Embeds `hyperlane-base/src/types/gcs_storage.rs`.  The stored latest-index blob
is modelled as `Option Nat` (`none` = the object was never written, which
`latest_index` reports as `Ok(None)` and `update_latest_index` treats as 0). -/

/-- `GcsStorageClient::update_latest_index`: reads the current latest index
(`unwrap_or(0)` for an absent blob) and overwrites the blob only when the new
index is strictly greater.  Returns the blob contents after the call. -/
def gcs_update_latest_index (stored : Option Nat) (index : Nat) : Option Nat :=
  let curr := stored.getD 0
  if index > curr then some index else stored

end Hyperlane

namespace Hyperlane

/-- C4 helper fact kept separate so the claim theorem can quote the exact
piecewise form. -/
theorem calculate_msg_backoff_eq_cases (n : Nat) :
    calculate_msg_backoff n =
      (if n < 1 then none
       else if n < 12 then some 10
       else if n < 24 then some ((n - 11) * 90)
       else if n < 36 then some (60 * 30)
       else if n < 48 then some (60 * 60)
       else some (60 * 60 * 3)) := by
  unfold calculate_msg_backoff
  rcases Nat.lt_or_ge n 1 with h1 | h1 <;>
  rcases Nat.lt_or_ge n 12 with h2 | h2 <;>
  rcases Nat.lt_or_ge n 24 with h3 | h3 <;>
  rcases Nat.lt_or_ge n 36 with h4 | h4 <;>
  rcases Nat.lt_or_ge n 48 with h5 | h5 <;>
  simp_all

/-- **C4.** For every retry count `n`, `calculate_msg_backoff n` is: no delay
for `n < 1`; 10 s for `1 ≤ n < 12`; `(n − 11) · 90` s for `12 ≤ n < 24`;
30 min for `24 ≤ n < 36`; 60 min for `36 ≤ n < 48`; 3 h for `n ≥ 48` — in
particular `calculate_msg_backoff 13 = 180` s — and `from_persisted_retries`
with a stored retry count `n` produces a pending message with
`num_retries = n` and `next_attempt_after = now + backoff(n)`. -/
theorem backoff_piecewise_and_persisted_restart (n now : Nat) :
    (n < 1 → calculate_msg_backoff n = none)
    ∧ (1 ≤ n → n < 12 → calculate_msg_backoff n = some 10)
    ∧ (12 ≤ n → n < 24 → calculate_msg_backoff n = some ((n - 11) * 90))
    ∧ (24 ≤ n → n < 36 → calculate_msg_backoff n = some (60 * 30))
    ∧ (36 ≤ n → n < 48 → calculate_msg_backoff n = some (60 * 60))
    ∧ (48 ≤ n → calculate_msg_backoff n = some (60 * 60 * 3))
    ∧ calculate_msg_backoff 13 = some 180
    ∧ (from_persisted_retries now (some (some n))).num_retries = n
    ∧ (from_persisted_retries now (some (some n))).next_attempt_after
        = (calculate_msg_backoff n).map (fun d => now + d) := by
  refine ⟨?_, ?_, ?_, ?_, ?_, ?_, by decide, rfl, rfl⟩ <;>
    intros <;> rw [calculate_msg_backoff_eq_cases] <;>
    repeat first
      | rfl
      | rw [if_pos (by omega)]
      | rw [if_neg (by omega)]

/-- Witness for C4: at retry count 13 and `now = 1000`, the backoff is 180 s
and the restarted message is scheduled at 1180. -/
theorem backoff_piecewise_and_persisted_restart_witness :
    calculate_msg_backoff 13 = some 180
    ∧ (from_persisted_retries 1000 (some (some 13))).num_retries = 13
    ∧ (from_persisted_retries 1000 (some (some 13))).next_attempt_after
        = some 1180 := by
  have h := backoff_piecewise_and_persisted_restart 13 1000
  refine ⟨h.2.2.2.2.2.2.1, h.2.2.2.2.2.2.2.1, ?_⟩
  rw [h.2.2.2.2.2.2.2.2, h.2.2.2.2.2.2.1]
  rfl

/-- Helper for C10: the value the store reports (absent = 0). -/
def gcsStoredValue (stored : Option Nat) : Nat := stored.getD 0

/-- **C10.** `update_latest_index i` writes only when `i` is strictly greater
than the currently stored latest index (absent treated as 0), and across any
sequence of `update_latest_index` calls the stored latest index is
monotonically non-decreasing. -/
theorem gcs_update_latest_index_monotone (stored : Option Nat) (i : Nat) :
    (gcs_update_latest_index stored i ≠ stored →
      gcsStoredValue stored < i ∧ gcs_update_latest_index stored i = some i)
    ∧ gcsStoredValue stored ≤ gcsStoredValue (gcs_update_latest_index stored i)
    ∧ ∀ updates : List Nat,
        gcsStoredValue stored ≤
          gcsStoredValue (updates.foldl gcs_update_latest_index stored) := by
  refine ⟨?_, ?_, ?_⟩
  · intro hne
    unfold gcs_update_latest_index at hne ⊢
    by_cases h : i > stored.getD 0
    · exact ⟨h, by simp [h]⟩
    · simp [h] at hne
  · unfold gcs_update_latest_index gcsStoredValue
    by_cases h : i > stored.getD 0 <;> simp [h]
    omega
  · intro updates
    induction updates generalizing stored with
    | nil => simp
    | cons u rest ih =>
        refine le_trans ?_ (ih (gcs_update_latest_index stored u))
        unfold gcs_update_latest_index gcsStoredValue
        by_cases h : u > stored.getD 0 <;> simp [h]
        omega

/-- Witness for C10: from a stored index 3, updating with 5 writes 5
(and 3 < 5); the fold over `[5, 2, 9]` ends at least at 3. -/
theorem gcs_update_latest_index_monotone_witness :
    (3 < 5 ∧ gcs_update_latest_index (some 3) 5 = some 5)
    ∧ gcsStoredValue (some 3) ≤
        gcsStoredValue ([5, 2, 9].foldl gcs_update_latest_index (some 3)) := by
  have h := gcs_update_latest_index_monotone (some 3) 5
  exact ⟨h.1 (by decide), h.2.2 [5, 2, 9]⟩

/-! ## Operation queue
Embeds `agents/relayer/src/msg/op_queue.rs` (`OpQueue::pop`,
`OpQueue::process_retry_requests`).  A queue operation is modelled by the
fields the queue logic observes: its `id`, its priority key
(`next_attempt_after`, then nonce — the `Ord` instance of
`Box<dyn PendingOperation>`), and its retry count. -/

/-- An operation held in the queue, reduced to the fields `OpQueue` observes. -/
structure QueueOp where
  id : Nat
  nonce : Nat
  num_retries : Nat
  next_attempt_after : Option Nat
deriving Repr, DecidableEq

/-- `PendingMessage::reset_attempts` as seen through the
`PendingOperation::reset_attempts` trait method: zero the retry count and clear
`next_attempt_after` (from `pending_message.rs`). -/
def QueueOp.resetAttempts (op : QueueOp) : QueueOp :=
  { op with num_retries := 0, next_attempt_after := none }

/-- Modelled from the spec: the `Ord` on pending operations lives in
`pending_operation.rs`, which is not present under `src/`.  Per §4.9:
operations with no `next_attempt_after` pop before operations that have one;
between two with times, the earlier time wins; otherwise the lower nonce
wins. -/
def QueueOp.le (a b : QueueOp) : Bool :=
  match a.next_attempt_after, b.next_attempt_after with
  | none, none => a.nonce ≤ b.nonce
  | none, some _ => true
  | some _, none => false
  | some x, some y => if x = y then a.nonce ≤ b.nonce else x ≤ y

/-- `BinaryHeap<Reverse<_>>::pop`: remove a minimal element (w.r.t.
`QueueOp.le`); ties resolved towards the earliest listed element. -/
def popMinQueue : List QueueOp → Option (QueueOp × List QueueOp)
  | [] => none
  | x :: xs =>
      match popMinQueue xs with
      | none => some (x, [])
      | some (m, rest) =>
          if QueueOp.le x m then some (x, xs) else some (m, x :: rest)

/-- The state `OpQueue::pop` operates on: the heap contents and the pending
contents of the multi-producer retry channel. -/
structure OpQueueState where
  queue : List QueueOp
  retry_ch : List Nat
deriving Repr, DecidableEq

/-- `OpQueue::process_retry_requests`: drain every message id from the retry
channel; if any were drained, rebuild the heap, applying `reset_attempts` to
each operation whose id was drained.  Ids matching no operation are simply
dropped with the rest of the drained batch. -/
def process_retry_requests (st : OpQueueState) : OpQueueState :=
  let message_ids := st.retry_ch
  if message_ids.isEmpty then { st with retry_ch := [] }
  else
    { queue := st.queue.map fun op =>
        if op.id ∈ message_ids then op.resetAttempts else op
      retry_ch := [] }

/-- `OpQueue::pop`: first process retry requests, then pop the heap minimum. -/
def opQueuePop (st : OpQueueState) : Option QueueOp × OpQueueState :=
  let st' := process_retry_requests st
  match popMinQueue st'.queue with
  | none => (none, st')
  | some (m, rest) => (some m, { st' with queue := rest })

theorem QueueOp.le_total (a b : QueueOp) : a.le b = true ∨ b.le a = true := by
  obtain ⟨ia, na, ra, ta⟩ := a
  obtain ⟨ib, nb, rb, tb⟩ := b
  unfold QueueOp.le
  rcases ta with _ | x <;> rcases tb with _ | y <;> simp <;> try omega
  by_cases hxy : x = y
  · subst hxy; simp; omega
  · simp [hxy, Ne.symm hxy]; omega

theorem QueueOp.le_refl (a : QueueOp) : a.le a = true := by
  obtain ⟨ia, na, ra, ta⟩ := a
  unfold QueueOp.le
  rcases ta with _ | x <;> simp

theorem QueueOp.le_trans {a b c : QueueOp} (hab : a.le b = true)
    (hbc : b.le c = true) : a.le c = true := by
  obtain ⟨ia, na, ra, ta⟩ := a
  obtain ⟨ib, nb, rb, tb⟩ := b
  obtain ⟨ic, nc, rc, tc⟩ := c
  unfold QueueOp.le at *
  rcases ta with _ | x <;> rcases tb with _ | y <;> rcases tc with _ | z <;>
    simp_all <;>
    try omega
  by_cases hxy : x = y <;> by_cases hyz : y = z <;> by_cases hxz : x = z <;>
    simp_all <;> omega

theorem popMinQueue_eq_none {l : List QueueOp} (h : popMinQueue l = none) :
    l = [] := by
  cases l with
  | nil => rfl
  | cons x xs =>
      exfalso
      unfold popMinQueue at h
      rcases h2 : popMinQueue xs with _ | p
      · rw [h2] at h; simp at h
      · obtain ⟨a, b⟩ := p
        rw [h2] at h
        by_cases hle : QueueOp.le x a <;> simp [hle] at h

/-- `popMinQueue` returns an element of the list, the rest of the list, and the
returned element is minimal. -/
theorem popMinQueue_spec (l : List QueueOp) (m : QueueOp) (rest : List QueueOp)
    (h : popMinQueue l = some (m, rest)) :
    m ∈ l ∧ (m :: rest).Perm l ∧ ∀ op ∈ l, m.le op = true := by
  induction l generalizing m rest with
  | nil => simp [popMinQueue] at h
  | cons x xs ih =>
      unfold popMinQueue at h
      rcases hx : popMinQueue xs with _ | ⟨m', rest'⟩
      · rw [hx] at h
        have hxs : xs = [] := popMinQueue_eq_none hx
        subst hxs
        simp at h
        obtain ⟨hm, hrest⟩ := h
        subst hm; subst hrest
        refine ⟨by simp, by simp, ?_⟩
        intro op hop
        simp at hop
        subst hop
        exact QueueOp.le_refl _
      · rw [hx] at h
        obtain ⟨hm', hperm', hmin'⟩ := ih m' rest' hx
        by_cases hle : QueueOp.le x m' = true
        · simp [hle] at h
          obtain ⟨hm, hrest⟩ := h
          subst hm; subst hrest
          refine ⟨by simp, by simp, ?_⟩
          intro op hop
          rcases List.mem_cons.mp hop with hop | hop
          · subst hop
            exact QueueOp.le_refl _
          · exact QueueOp.le_trans hle (hmin' op hop)
        · simp [hle] at h
          obtain ⟨hm, hrest⟩ := h
          subst hm; subst hrest
          have hmx : QueueOp.le m' x = true := by
            rcases QueueOp.le_total x m' with h' | h'
            · exact absurd h' hle
            · exact h'
          refine ⟨List.mem_cons_of_mem x hm', ?_, ?_⟩
          · exact List.Perm.trans (List.Perm.swap x m' rest') (List.Perm.cons x hperm')
          · intro op hop
            rcases List.mem_cons.mp hop with hop | hop
            · subst hop; exact hmx
            · exact hmin' op hop

/-- **C7.** `pop` first drains all ids from the retry channel; every operation
in the heap whose id is among the drained ids has `reset_attempts` applied
before the heap minimum is popped (so the popped element is a minimum of the
*reset* queue and the remaining queue is the reset queue minus it); a drained
id matching no operation has no effect and is not buffered (the channel always
ends empty, and dropping such an id from the channel does not change the
result). -/
theorem opQueuePop_resets_then_pops_min (st : OpQueueState) :
    (opQueuePop st).2.retry_ch = []
    ∧ (∀ m, (opQueuePop st).1 = some m →
        let q' := st.queue.map fun op =>
          if op.id ∈ st.retry_ch then op.resetAttempts else op
        m ∈ q' ∧ (∀ op ∈ q', m.le op = true)
          ∧ (m :: (opQueuePop st).2.queue).Perm q')
    ∧ ((opQueuePop st).1 = none → st.queue = [])
    ∧ (∀ x ch, (∀ op ∈ st.queue, op.id ≠ x) →
        opQueuePop { st with retry_ch := x :: ch }
          = opQueuePop { st with retry_ch := ch }) := by
  have hq' : (process_retry_requests st).queue
      = st.queue.map fun op =>
          if op.id ∈ st.retry_ch then op.resetAttempts else op := by
    unfold process_retry_requests
    by_cases hch : st.retry_ch.isEmpty
    · have hnil : st.retry_ch = [] := by
        cases h : st.retry_ch with
        | nil => rfl
        | cons a l => rw [h] at hch; simp at hch
      simp [hch, hnil]
    · simp [hch]
  have hch0 : (process_retry_requests st).retry_ch = [] := by
    unfold process_retry_requests
    by_cases hch : st.retry_ch.isEmpty <;> simp [hch]
  have heq : opQueuePop st
      = (match popMinQueue (process_retry_requests st).queue with
        | none => ((none : Option QueueOp), process_retry_requests st)
        | some (m, rest) =>
            (some m, { process_retry_requests st with queue := rest })) := rfl
  refine ⟨?_, ?_, ?_, ?_⟩
  · rw [heq]
    rcases h : popMinQueue (process_retry_requests st).queue with _ | ⟨m, rest⟩ <;>
      simp [h, hch0]
  · intro m hm q'
    rw [heq] at hm
    rcases h : popMinQueue (process_retry_requests st).queue with _ | ⟨m', rest⟩ <;>
      rw [h] at hm <;> simp at hm
    subst hm
    obtain ⟨hmem, hperm, hmin⟩ := popMinQueue_spec _ _ _ h
    rw [hq'] at hmem hperm hmin
    refine ⟨hmem, hmin, ?_⟩
    have h2 : (opQueuePop st).2.queue = rest := by
      rw [heq, h]
    rw [h2]
    exact hperm
  · intro hnone
    rw [heq] at hnone
    rcases h : popMinQueue (process_retry_requests st).queue with _ | ⟨m, rest⟩ <;>
      rw [h] at hnone <;> simp at hnone
    have hmap : (process_retry_requests st).queue = [] := popMinQueue_eq_none h
    rw [hq'] at hmap
    exact List.map_eq_nil_iff.mp hmap
  · intro x ch hx
    unfold opQueuePop
    have hpr : process_retry_requests { st with retry_ch := x :: ch }
        = process_retry_requests { st with retry_ch := ch } := by
      unfold process_retry_requests
      by_cases hch : ch.isEmpty
      · have hche : ch = [] := by
          cases h : ch with
          | nil => rfl
          | cons a l => rw [h] at hch; simp at hch
        subst hche
        simp only [List.isEmpty_nil, List.isEmpty_cons, if_true, Bool.false_eq_true,
          if_false]
        have hmap : (st.queue.map fun op =>
            if op.id ∈ [x] then op.resetAttempts else op) = st.queue := by
          conv_rhs => rw [← List.map_id st.queue]
          apply List.map_congr_left
          intro op hop
          simp [hx op hop]
        simp only [List.mem_singleton] at hmap ⊢
        rw [hmap]
      · have hch2 : ¬ (x :: ch).isEmpty := by simp
        simp only [hch, hch2, Bool.false_eq_true, if_false]
        have hmap : ∀ op ∈ st.queue,
            (if op.id ∈ x :: ch then op.resetAttempts else op)
              = (if op.id ∈ ch then op.resetAttempts else op) := by
          intro op hop
          have : (op.id ∈ x :: ch) ↔ (op.id ∈ ch) := by
            simp [hx op hop]
          simp only [this]
        rw [List.map_congr_left hmap]
    rw [hpr]

/-- Witness for C7: queue of two ops (ids 1, 2; the one with a set
`next_attempt_after` listed first), retry channel holding id 2 and the
unmatched id 99: op 2 is reset and popped first, the channel ends empty, and
dropping 99 changes nothing. -/
theorem opQueuePop_resets_then_pops_min_witness :
    let op1 : QueueOp := { id := 1, nonce := 0, num_retries := 0, next_attempt_after := some 50 }
    let op2 : QueueOp := { id := 2, nonce := 1, num_retries := 7, next_attempt_after := some 90 }
    let st : OpQueueState := { queue := [op1, op2], retry_ch := [99, 2] }
    (opQueuePop st).2.retry_ch = []
    ∧ (opQueuePop st).1 = some op2.resetAttempts
    ∧ op2.resetAttempts ∈ [op1, op2.resetAttempts]
    ∧ (∀ op ∈ [op1, op2.resetAttempts], (op2.resetAttempts).le op = true)
    ∧ opQueuePop { queue := [op1], retry_ch := [99] }
        = opQueuePop { queue := [op1], retry_ch := [] } := by
  intro op1 op2 st
  have h := opQueuePop_resets_then_pops_min st
  have hpop : (opQueuePop st).1 = some op2.resetAttempts := by decide
  have h2 := h.2.1 op2.resetAttempts hpop
  have h4 := (opQueuePop_resets_then_pops_min
      { queue := [op1], retry_ch := [] }).2.2.2 99 []
    (by intro op hop; simp at hop; subst hop; decide)
  exact ⟨h.1, hpop, by simpa using h2.1, by simpa using h2.2.1, h4⟩

/-! ## Forward sequence-aware cursor
Embeds `hyperlane-base/src/contract_sync/cursor.rs`
(`SequenceSyncCursor::update`, `ForwardSequenceSyncCursor::update`).  The
origin database's `retrieve_log_block_number` is modelled as a function
`db : Nat → Option Nat` from sequence to dispatch block (`Err` and `Ok(None)`
both collapse to `none`, as the code flattens them with `.ok().flatten()`). -/

/-- `IndexMode` (hyperlane-core). -/
inductive IndexMode where
  | block
  | sequenceMode
deriving Repr, DecidableEq

/-- `SyncDirection`. -/
inductive SyncDirection where
  | forward
  | backward
deriving Repr, DecidableEq

/-- `SyncState` from `cursor.rs`. -/
structure SyncState where
  chunk_size : Nat
  start_block : Nat
  next_block : Nat
  mode : IndexMode
  next_sequence : Nat
  direction : SyncDirection
deriving Repr, DecidableEq

/-- One fetched log: its sequence (nonce) and the block it was found in
(`LogMeta.block_number`). -/
structure LogEntry where
  sequence : Nat
  block_number : Nat
deriving Repr, DecidableEq

/-- `SequenceSyncCursor::update`: if logs were found but none has the sequence
the cursor is looking for, rewind `next_block` to the dispatch block of
`prev_sequence` when known, else to `start_block`; otherwise leave the state
unchanged. -/
def sequence_sync_cursor_update (db : Nat → Option Nat) (st : SyncState)
    (logs : List LogEntry) (prev_sequence : Nat) : SyncState :=
  if ¬ logs.isEmpty ∧ ¬ logs.any (fun m => m.sequence = st.next_sequence) then
    match db prev_sequence with
    | some block_number => { st with next_block := block_number }
    | none => { st with next_block := st.start_block }
  else st

/-- `ForwardSequenceSyncCursor::update`: filter out logs below
`next_sequence`, then run the shared update with
`prev_sequence = next_sequence - 1` (saturating). -/
def forward_sequence_sync_cursor_update (db : Nat → Option Nat) (st : SyncState)
    (logs : List LogEntry) : SyncState :=
  let prev_sequence := st.next_sequence - 1
  let filtered_logs := logs.filter (fun m => st.next_sequence ≤ m.sequence)
  sequence_sync_cursor_update db st filtered_logs prev_sequence

/-- A database with the dispatch block of sequence 4 recorded at block 80,
used by the C2 counterexample. -/
def c2Db : Nat → Option Nat := fun n => if n = 4 then some 80 else none

/-- The cursor state used by the C2 counterexample. -/
def c2State : SyncState :=
  { chunk_size := 10
    start_block := 50
    next_block := 100
    mode := IndexMode.block
    next_sequence := 5
    direction := SyncDirection.forward }

/-- **C2 counterexample.** The claim says that when the fetched logs contain
`next_sequence`, `update` advances `next_block` past the range end and
`next_sequence` past the highest ingested sequence.  With
`next_sequence = 5`, `next_block = 100` and a fetched log for sequence 5 at
block 103 (range end ≥ 103), `update` leaves the cursor state entirely
unchanged: `next_block` stays 100 (not advanced past 103) and `next_sequence`
stays 5 (not advanced past 5). -/
theorem forward_cursor_update_does_not_advance :
    forward_sequence_sync_cursor_update c2Db c2State [⟨5, 103⟩] = c2State
    ∧ ¬ 103 < (forward_sequence_sync_cursor_update c2Db c2State
        [⟨5, 103⟩]).next_block
    ∧ ¬ 5 < (forward_sequence_sync_cursor_update c2Db c2State
        [⟨5, 103⟩]).next_sequence := by
  refine ⟨rfl, by decide, by decide⟩

/-- **C2 (amended).** For the forward sequence-aware cursor, calling `update`
with a non-empty set of fetched logs (restricted to sequences at or above
`next_sequence`) that does not contain `next_sequence` leaves `next_sequence`
unchanged and rewinds `next_block` to the dispatch block of
`next_sequence − 1` when that is known, otherwise to `start_block`; when
`next_sequence` is contained (and likewise when the restricted set is empty),
`update` leaves the whole cursor state — in particular `next_block` and
`next_sequence` — unchanged: advancing them is done by `get_next_range` /
the fast-forward loop, not by `update`. -/
theorem forward_cursor_update_spec (db : Nat → Option Nat) (st : SyncState)
    (logs : List LogEntry) :
    (¬ (logs.filter (fun m => st.next_sequence ≤ m.sequence)).isEmpty →
      ¬ (logs.filter (fun m => st.next_sequence ≤ m.sequence)).any
          (fun m => m.sequence = st.next_sequence) →
      (forward_sequence_sync_cursor_update db st logs).next_sequence
          = st.next_sequence
      ∧ (forward_sequence_sync_cursor_update db st logs).next_block
          = ((db (st.next_sequence - 1)).getD st.start_block))
    ∧ ((logs.filter (fun m => st.next_sequence ≤ m.sequence)).any
          (fun m => m.sequence = st.next_sequence) →
        forward_sequence_sync_cursor_update db st logs = st)
    ∧ ((logs.filter (fun m => st.next_sequence ≤ m.sequence)).isEmpty →
        forward_sequence_sync_cursor_update db st logs = st) := by
  unfold forward_sequence_sync_cursor_update sequence_sync_cursor_update
  refine ⟨?_, ?_, ?_⟩
  · intro hne hnc
    rw [if_pos ⟨hne, by simpa using hnc⟩]
    rcases h : db (st.next_sequence - 1) with _ | b <;> simp [h]
  · intro hc
    rw [if_neg]
    intro hand
    exact hand.2 (by simpa using hc)
  · intro hempty
    rw [if_neg]
    intro hand
    exact hand.1 hempty

/-- Witness for C2 (amended): with `next_sequence = 5` and a fetched log only
for sequence 6, the cursor keeps `next_sequence = 5` and rewinds `next_block`
to block 80, the recorded dispatch block of sequence 4; and with a log for
sequence 5 the state is unchanged. -/
theorem forward_cursor_update_spec_witness :
    ((forward_sequence_sync_cursor_update c2Db c2State [⟨6, 103⟩]).next_sequence = 5
      ∧ (forward_sequence_sync_cursor_update c2Db c2State [⟨6, 103⟩]).next_block = 80)
    ∧ forward_sequence_sync_cursor_update c2Db c2State [⟨5, 103⟩] = c2State := by
  have h := forward_cursor_update_spec c2Db c2State [⟨6, 103⟩]
  have h2 := forward_cursor_update_spec c2Db c2State [⟨5, 103⟩]
  exact ⟨h.1 (by decide) (by decide), h2.2.1 (by decide)⟩

/-! ## Pending-message state machine
Embeds `agents/relayer/src/msg/pending_message.rs`
(`prepare` / `submit` / `confirm` and their helpers).  External calls are
modelled as oracle fields of an environment record; for each, `none` models an
`Err` from the provider. -/

/-- The result type of a pending-operation step.  Modelled from the spec:
`PendingOperationResult` lives in `pending_operation.rs`, which is not present
under `src/`; §4.10 distinguishes Success, NotReady, Reprepare, Drop and the
critical-failure outcome. -/
inductive PendingOperationResult where
  | success
  | notReady
  | reprepare
  | dropOp
  | criticalFailure
deriving Repr, DecidableEq

/-- `CONFIRM_DELAY` in production mode (10 minutes, in seconds). -/
def confirmDelaySecs : Nat := 600

/-- `PendingMessage::is_ready`: `next_attempt_after.map(|a| now >= a).unwrap_or(true)`. -/
def is_ready (now : Nat) (s : PendingMessageState) : Bool :=
  match s.next_attempt_after with
  | some a => now ≥ a
  | none => true

/-- `PendingMessage::inc_attempts`: bump the (persisted) retry count, stamp
`last_attempted_at`, and schedule the next attempt after the backoff for the
new count. -/
def inc_attempts (now : Nat) (s : PendingMessageState) : PendingMessageState :=
  let n := s.num_retries + 1
  { s with
    num_retries := n
    last_attempted_at := now
    next_attempt_after := (calculate_msg_backoff n).map (fun d => now + d) }

/-- `PendingMessage::reset_attempts`: zero the retry count, clear
`next_attempt_after`, stamp `last_attempted_at`. -/
def reset_attempts (now : Nat) (s : PendingMessageState) : PendingMessageState :=
  { s with
    num_retries := 0
    next_attempt_after := none
    last_attempted_at := now }

/-- `PendingMessage::on_reprepare`: increment attempts, mark unsubmitted,
return `Reprepare`. -/
def on_reprepare (now : Nat) (s : PendingMessageState) :
    PendingOperationResult × PendingMessageState :=
  (PendingOperationResult.reprepare, { inc_attempts now s with submitted := false })

/-- `TxCostEstimate` as returned by `Mailbox::process_estimate_costs`
(the field `prepare`/`submit` read). -/
structure TxCostEstimate where
  gas_limit : Nat
deriving Repr, DecidableEq

/-- Oracle results for the external calls made by `PendingMessage::prepare`,
in call order.  `none` models an `Err` (handled by `op_try` as a reprepare);
for `metadata` and `gas_payment_requirement`, `some none` models `Ok(None)`. -/
structure PrepareEnv where
  delivered : Option Bool
  is_contract : Option Bool
  recipient_ism : Option Nat
  metadata_builder_ok : Bool
  metadata : Option (Option (List Nat))
  tx_cost_estimate : Option TxCostEstimate
  gas_payment_requirement : Option (Option Nat)
deriving Repr, DecidableEq

/-- `PendingMessage::prepare`.  `transaction_gas_limit` is the context's
optional hard cap.  Note the faithful re-binding
`let gas_limit := tx_cost_estimate.gas_limit` after the gas-payment check:
the limit returned by the enforcer is dropped. -/
def prepare (now : Nat) (transaction_gas_limit : Option Nat) (env : PrepareEnv)
    (s : PendingMessageState) : PendingOperationResult × PendingMessageState :=
  if ¬ is_ready now s then (PendingOperationResult.notReady, s)
  else
    match env.delivered with
    | none => on_reprepare now s
    | some true =>
        (PendingOperationResult.success,
          { s with
            submitted := true
            next_attempt_after := some (now + confirmDelaySecs) })
    | some false =>
        match env.is_contract with
        | none => on_reprepare now s
        | some false => (PendingOperationResult.dropOp, s)
        | some true =>
            match env.recipient_ism with
            | none => on_reprepare now s
            | some _ =>
                if ¬ env.metadata_builder_ok then on_reprepare now s
                else
                  match env.metadata with
                  | none => on_reprepare now s
                  | some none => on_reprepare now s
                  | some (some metadata) =>
                      match env.tx_cost_estimate with
                      | none => on_reprepare now s
                      | some tx_cost_estimate =>
                          match env.gas_payment_requirement with
                          | none => on_reprepare now s
                          | some none => on_reprepare now s
                          | some (some _enforcer_gas_limit) =>
                              let gas_limit := tx_cost_estimate.gas_limit
                              match transaction_gas_limit with
                              | some max_limit =>
                                  if gas_limit > max_limit then on_reprepare now s
                                  else
                                    (PendingOperationResult.success,
                                      { s with
                                        submission_data :=
                                          some { metadata := metadata
                                                 gas_limit := gas_limit } })
                              | none =>
                                  (PendingOperationResult.success,
                                    { s with
                                      submission_data :=
                                        some { metadata := metadata
                                               gas_limit := gas_limit } })

/-- `TxOutcome` (the field `submit` reads). -/
structure TxOutcome where
  executed : Bool
deriving Repr, DecidableEq

/-- Oracle results for `PendingMessage::submit`. -/
structure SubmitEnv where
  process_outcome : Option TxOutcome
  record_tx_outcome_ok : Bool
deriving Repr, DecidableEq

/-- The observable effect of one `submit` call: its return value, the new
state, and — when `Mailbox::process` was invoked — the `(metadata, gas cap)`
arguments that were passed to it. -/
structure SubmitEffect where
  result : PendingOperationResult
  state : PendingMessageState
  processCall : Option (List Nat × Nat)
deriving Repr, DecidableEq

/-- `PendingMessage::submit`.  The outer `none` models the
`expect("Pending message must be prepared before it can be submitted")`
panic. -/
def submit (now : Nat) (env : SubmitEnv) (s : PendingMessageState) :
    Option SubmitEffect :=
  if s.submitted then
    some { result := PendingOperationResult.success, state := s, processCall := none }
  else
    match s.submission_data with
    | none => none
    | some state_data =>
        let s1 := { s with submission_data := none }
        let call := some (state_data.metadata, state_data.gas_limit)
        match env.process_outcome with
        | none =>
            let r := on_reprepare now s1
            some { result := r.1, state := r.2, processCall := call }
        | some tx_outcome =>
            if ¬ env.record_tx_outcome_ok then
              some { result := PendingOperationResult.criticalFailure, state := s1
                     processCall := call }
            else if tx_outcome.executed then
              let s2 := reset_attempts now { s1 with submitted := true }
              some { result := PendingOperationResult.success
                     state := { s2 with next_attempt_after := some (now + confirmDelaySecs) }
                     processCall := call }
            else
              let r := on_reprepare now s1
              some { result := r.1, state := r.2, processCall := call }

/-- Oracle results for `PendingMessage::confirm`. -/
structure ConfirmEnv where
  delivered : Option Bool
  record_success_ok : Bool
deriving Repr, DecidableEq

/-- `PendingMessage::confirm`.  The `op_try` handler for this method
increments the attempt count and returns `NotReady` on a provider error;
`record_message_process_success` failure is critical. -/
def confirm (now : Nat) (env : ConfirmEnv) (s : PendingMessageState) :
    PendingOperationResult × PendingMessageState :=
  if ¬ is_ready now s then (PendingOperationResult.notReady, s)
  else
    match env.delivered with
    | none => (PendingOperationResult.notReady, inc_attempts now s)
    | some true =>
        if env.record_success_ok then (PendingOperationResult.success, s)
        else (PendingOperationResult.criticalFailure, s)
    | some false => on_reprepare now (reset_attempts now s)

/-- The environment for the C5 counterexample: the message is ready and
deliverable, the estimator reports `gas_limit = 2`, and the gas-payment
enforcer permits submission returning `g = 1`. -/
def c5Env : PrepareEnv :=
  { delivered := some false
    is_contract := some true
    recipient_ism := some 7
    metadata_builder_ok := true
    metadata := some (some [1, 2, 3])
    tx_cost_estimate := some { gas_limit := 2 }
    gas_payment_requirement := some (some 1) }

/-- **C5 counterexample.** The claim says the `gas_limit` stored in
`submission_data` equals the value `g` returned by the enforcer.  With the
enforcer returning `g = 1` and the estimator reporting 2, `prepare` succeeds
but stores `gas_limit = 2 ≠ 1`: the enforcer's value is shadowed by
`let gas_limit = tx_cost_estimate.gas_limit` in `prepare`. -/
theorem prepare_ignores_enforcer_gas_limit :
    c5Env.gas_payment_requirement = some (some 1)
    ∧ (prepare 0 none c5Env (PendingMessageState.fresh 0)).1
        = PendingOperationResult.success
    ∧ (prepare 0 none c5Env (PendingMessageState.fresh 0)).2.submission_data
        = some { metadata := [1, 2, 3], gas_limit := 2 }
    ∧ (2 : Nat) ≠ 1 := by
  refine ⟨rfl, rfl, rfl, by decide⟩

/-- **C5 (amended).** For every pending message whose `prepare()` reaches the
gas-payment check and where the enforcer permits submission by returning
`Some g`, the `gas_limit` stored in `submission_data` equals
`tx_cost_estimate.gas_limit` — the estimator's value, regardless of `g`,
which only gates whether submission proceeds — and `submit()` passes exactly
the stored `gas_limit` as the gas cap to `destination_mailbox.process`. -/
theorem prepare_stores_estimator_gas_limit (now : Nat)
    (transaction_gas_limit : Option Nat) (env : PrepareEnv)
    (s : PendingMessageState) (md : List Nat) (est : TxCostEstimate) (g : Nat) :
    (is_ready now s = true →
      env.delivered = some false →
      env.is_contract = some true →
      (env.recipient_ism).isSome = true →
      env.metadata_builder_ok = true →
      env.metadata = some (some md) →
      env.tx_cost_estimate = some est →
      env.gas_payment_requirement = some (some g) →
      (∀ max_limit, transaction_gas_limit = some max_limit →
        est.gas_limit ≤ max_limit) →
      prepare now transaction_gas_limit env s
        = (PendingOperationResult.success,
            { s with submission_data := some ⟨md, est.gas_limit⟩ }))
    ∧ (∀ (senv : SubmitEnv) (d : SubmissionData),
        s.submitted = false →
        s.submission_data = some d →
        (submit now senv s).map SubmitEffect.processCall
          = some (some (d.metadata, d.gas_limit))) := by
  constructor
  · intro hready hdel hic hism hmb hmd hest hgas hcap
    rcases henv : env.recipient_ism with _ | ism
    · rw [henv] at hism; simp at hism
    unfold prepare
    rw [if_neg (by simp [hready])]
    rw [hdel, hic, henv, hmd, hest, hgas, if_neg (by simp [hmb])]
    rcases htgl : transaction_gas_limit with _ | max_limit
    · rfl
    · have := hcap max_limit htgl
      simp only []
      rw [if_neg (by omega)]
  · intro senv d hsub hdata
    unfold submit
    rw [if_neg (by simp [hsub]), hdata]
    rcases hp : senv.process_outcome with _ | outcome
    · simp
    · by_cases hr : senv.record_tx_outcome_ok
      · by_cases hx : outcome.executed <;> simp [hr, hx]
      · simp [hr]

/-- Witness for C5 (amended): a concrete run in which the enforcer returns 1,
the estimator 2, the stored gas limit is 2, and `submit` passes 2 to
`process`. -/
theorem prepare_stores_estimator_gas_limit_witness :
    (prepare 0 none c5Env (PendingMessageState.fresh 0)).2.submission_data
      = some { metadata := [1, 2, 3], gas_limit := 2 }
    ∧ (submit 0 { process_outcome := some { executed := true }, record_tx_outcome_ok := true }
        ((prepare 0 none c5Env (PendingMessageState.fresh 0)).2)).map
          SubmitEffect.processCall = some (some ([1, 2, 3], 2)) := by
  have h := prepare_stores_estimator_gas_limit 0 none c5Env
    (PendingMessageState.fresh 0) [1, 2, 3] { gas_limit := 2 } 1
  have h1 := h.1 rfl rfl rfl rfl rfl rfl rfl rfl (by intro m hm; cases hm)
  have hs := prepare_stores_estimator_gas_limit 0 none c5Env
    ((prepare 0 none c5Env (PendingMessageState.fresh 0)).2) [1, 2, 3]
    { gas_limit := 2 } 1
  have h2 := hs.2 { process_outcome := some { executed := true }, record_tx_outcome_ok := true }
    { metadata := [1, 2, 3], gas_limit := 2 } (by rw [h1]; rfl) (by rw [h1])
  exact ⟨by rw [h1], h2⟩

/-! ## Aggregation ISM metadata
Embeds `agents/relayer/src/msg/metadata/aggregation.rs`
(`AggregationIsmMetadataBuilder::format_metadata` and `build`).  Bytes are
`Nat`s; `encode_byte_index` performs the `as u32` truncation explicitly. -/

/-- `encode_byte_index(i)`: the 4 big-endian bytes of `i as u32`. -/
def encode_byte_index (i : Nat) : List Nat :=
  [i / 2 ^ 24 % 256, i / 2 ^ 16 % 256, i / 2 ^ 8 % 256, i % 256]

/-- `METADATA_RANGE_SIZE * 2 = 8`: bytes per (start, end) offset pair. -/
def metadataRangePairSize : Nat := 8

/-- The loop body of `format_metadata`: for each metadata, append it to the
buffer (`range_start` is the length before, `range_end` the length after),
then splice the encoded `(range_start, range_end)` pair over the
zero-initialized 8-byte slot at `8 * index` (a `Vec::splice` of equal length
is take-insert-drop). -/
def format_metadata_loop (buffer : List Nat) (index : Nat) :
    List (List Nat) → List Nat
  | [] => buffer
  | metadata :: rest =>
      format_metadata_loop
        ((buffer ++ metadata).take (metadataRangePairSize * index)
          ++ encode_byte_index buffer.length
          ++ encode_byte_index (buffer ++ metadata).length
          ++ (buffer ++ metadata).drop
              (metadataRangePairSize * index + metadataRangePairSize))
        (index + 1) rest

/-- `AggregationIsmMetadataBuilder::format_metadata`: start from a buffer of
`8 · N` zero bytes and run the loop. -/
def format_metadata (metadatas : List (List Nat)) : List Nat :=
  format_metadata_loop
    (List.replicate (metadataRangePairSize * metadatas.length) 0) 0 metadatas

/-- `AggregationIsmMetadataBuilder::build`, as a function of the sub-builds'
outcomes: drop failures (`Err` and `Ok(None)` alike, both modelled `none`),
return `none` below the threshold, else format. -/
def aggregation_build (threshold : Nat)
    (sub_results : List (Option (List Nat))) : Option (List Nat) :=
  let filtered_metadatas := sub_results.filterMap id
  if filtered_metadatas.length < threshold then none
  else some (format_metadata filtered_metadatas)

/-- Declarative layout of the offset-pair header: for payloads `ms` laid out
starting at absolute offset `base`, the `(start, end)` pairs in order. -/
def aggregation_ranges (base : Nat) : List (List Nat) → List Nat
  | [] => []
  | m :: rest =>
      encode_byte_index base ++ encode_byte_index (base + m.length)
        ++ aggregation_ranges (base + m.length) rest

theorem encode_byte_index_length (i : Nat) : (encode_byte_index i).length = 4 := rfl

theorem aggregation_ranges_cons (base : Nat) (m : List Nat) (rest : List (List Nat)) :
    aggregation_ranges base (m :: rest)
      = encode_byte_index base ++ encode_byte_index (base + m.length)
        ++ aggregation_ranges (base + m.length) rest := rfl

theorem aggregation_ranges_length (base : Nat) (ms : List (List Nat)) :
    (aggregation_ranges base ms).length = 8 * ms.length := by
  induction ms generalizing base with
  | nil => rfl
  | cons m rest ih =>
      simp only [aggregation_ranges, List.length_append, encode_byte_index_length,
        ih, List.length_cons]
      ring

/-- The splice loop, run on a buffer `A ++ zeros ++ P` whose zero block has one
8-byte slot per remaining metadata and where `A` covers the already-filled
slots, produces the declarative layout. -/
theorem format_metadata_loop_spec (ms : List (List Nat)) (A P : List Nat)
    (idx : Nat) (hA : A.length = 8 * idx) :
    format_metadata_loop (A ++ List.replicate (8 * ms.length) 0 ++ P) idx ms
      = A ++ aggregation_ranges (A.length + 8 * ms.length + P.length) ms
          ++ P ++ ms.join := by
  induction ms generalizing A P idx with
  | nil => simp [format_metadata_loop, aggregation_ranges]
  | cons m rest ih =>
      have hrep : List.replicate (8 * (m :: rest).length) (0 : Nat)
          = List.replicate 8 0 ++ List.replicate (8 * rest.length) 0 := by
        rw [← List.replicate_add]
        congr 1
        simp [List.length_cons]
        ring
      rw [hrep, format_metadata_loop]
      have hers : metadataRangePairSize * idx = A.length := by
        rw [hA]; unfold metadataRangePairSize; ring
      have htake : ((A ++ (List.replicate 8 0 ++ List.replicate (8 * rest.length) 0) ++ P)
          ++ m).take (metadataRangePairSize * idx) = A := by
        rw [hers]
        have : (A ++ (List.replicate 8 0 ++ List.replicate (8 * rest.length) 0) ++ P) ++ m
            = A ++ ((List.replicate 8 0 ++ List.replicate (8 * rest.length) 0) ++ P ++ m) := by
          simp [List.append_assoc]
        rw [this, List.take_left]
      have hdrop : ((A ++ (List.replicate 8 0 ++ List.replicate (8 * rest.length) 0) ++ P)
          ++ m).drop (metadataRangePairSize * idx + metadataRangePairSize)
          = List.replicate (8 * rest.length) 0 ++ P ++ m := by
        rw [hers]
        have hshape : (A ++ (List.replicate 8 0 ++ List.replicate (8 * rest.length) 0) ++ P) ++ m
            = A ++ (List.replicate 8 0 ++ (List.replicate (8 * rest.length) 0 ++ P ++ m)) := by
          simp [List.append_assoc]
        rw [hshape]
        show List.drop (A.length + metadataRangePairSize) _ = _
        have h8 : metadataRangePairSize = (List.replicate 8 (0 : Nat)).length := by
          simp [metadataRangePairSize]
        rw [h8, List.drop_append, List.drop_left]
      rw [htake, hdrop]
      have hlenbuf : (A ++ (List.replicate 8 0 ++ List.replicate (8 * rest.length) 0) ++ P).length
          = A.length + 8 + 8 * rest.length + P.length := by
        simp [List.length_append]
        ring
      have hlenbuf2 : ((A ++ (List.replicate 8 0 ++ List.replicate (8 * rest.length) 0) ++ P)
          ++ m).length = A.length + 8 + 8 * rest.length + P.length + m.length := by
        rw [List.length_append, hlenbuf]
      rw [hlenbuf, hlenbuf2]
      set rs := A.length + 8 + 8 * rest.length + P.length with hrs
      have hshape2 : A ++ encode_byte_index rs ++ encode_byte_index (rs + m.length)
            ++ (List.replicate (8 * rest.length) 0 ++ P ++ m)
          = (A ++ encode_byte_index rs ++ encode_byte_index (rs + m.length))
            ++ List.replicate (8 * rest.length) 0 ++ (P ++ m) := by
        simp [List.append_assoc]
      rw [hshape2]
      have hA' : (A ++ encode_byte_index rs ++ encode_byte_index (rs + m.length)).length
          = 8 * (idx + 1) := by
        simp [List.length_append, encode_byte_index_length, hA]
        ring
      rw [ih (A ++ encode_byte_index rs ++ encode_byte_index (rs + m.length))
        (P ++ m) (idx + 1) hA']
      have hbase : (A ++ encode_byte_index rs ++ encode_byte_index (rs + m.length)).length
          + 8 * rest.length + (P ++ m).length = rs + m.length := by
        simp [List.length_append, encode_byte_index_length, hrs]
        ring
      rw [hbase]
      have hbase2 : A.length + 8 * (m :: rest).length + P.length = rs := by
        simp [List.length_cons, hrs]
        ring
      rw [hbase2, aggregation_ranges_cons]
      simp [List.append_assoc]

/-- The 8-byte slice of the header at pair `i` holds the `(start, end)`
offsets of payload `i`: `start = base + length of the preceding payloads`,
`end = start + length of payload i`. -/
theorem aggregation_ranges_slice (base : Nat) (ms : List (List Nat)) (i : Nat)
    (h : i < ms.length) :
    ((aggregation_ranges base ms).drop (8 * i)).take 8
      = encode_byte_index (base + ((ms.take i).map List.length).sum)
        ++ encode_byte_index (base + ((ms.take (i + 1)).map List.length).sum) := by
  induction ms generalizing base i with
  | nil => simp at h
  | cons m rest ih =>
      have hX : (encode_byte_index base ++ encode_byte_index (base + m.length)).length
          = 8 := by
        simp [List.length_append, encode_byte_index_length]
      cases i with
      | zero =>
          rw [aggregation_ranges_cons]
          rw [show (8 : Nat) * 0 = 0 by ring, List.drop_zero]
          have hshape : encode_byte_index base ++ encode_byte_index (base + m.length)
              ++ aggregation_ranges (base + m.length) rest
            = (encode_byte_index base ++ encode_byte_index (base + m.length))
              ++ aggregation_ranges (base + m.length) rest := rfl
          rw [hshape, ← hX, List.take_left]
          simp
      | succ i =>
          rw [aggregation_ranges_cons]
          have hshape : encode_byte_index base ++ encode_byte_index (base + m.length)
              ++ aggregation_ranges (base + m.length) rest
            = (encode_byte_index base ++ encode_byte_index (base + m.length))
              ++ aggregation_ranges (base + m.length) rest := rfl
          have hmul : 8 * (i + 1)
              = (encode_byte_index base ++ encode_byte_index (base + m.length)).length
                + 8 * i := by
            rw [hX]; ring
          rw [hshape, hmul, List.drop_append]
          have hlt : i < rest.length := by
            simpa using Nat.lt_of_succ_lt_succ (by simpa using h)
          rw [ih (base + m.length) i hlt]
          simp [Nat.add_assoc]

/-- Dropping the 8·K-byte header of the formatted blob leaves exactly the
payloads concatenated in order. -/
theorem aggregation_blob_drop_header (ms : List (List Nat)) :
    (aggregation_ranges (8 * ms.length) ms ++ ms.join).drop (8 * ms.length)
      = ms.join := by
  have h := aggregation_ranges_length (8 * ms.length) ms
  calc (aggregation_ranges (8 * ms.length) ms ++ ms.join).drop (8 * ms.length)
      = (aggregation_ranges (8 * ms.length) ms ++ ms.join).drop
          (aggregation_ranges (8 * ms.length) ms).length := by rw [h]
    _ = ms.join := List.drop_left _ _

/-- `format_metadata` produces the header followed by the payloads. -/
theorem format_metadata_eq (ms : List (List Nat)) :
    format_metadata ms = aggregation_ranges (8 * ms.length) ms ++ ms.join := by
  unfold format_metadata
  have h := format_metadata_loop_spec ms [] [] 0 (by simp)
  have h8 : metadataRangePairSize * ms.length = 8 * ms.length := by
    unfold metadataRangePairSize; ring
  rw [h8]
  have hbuf : ([] : List Nat) ++ List.replicate (8 * ms.length) 0 ++ []
      = List.replicate (8 * ms.length) (0 : Nat) := by simp
  rw [hbuf] at h
  rw [h]
  simp

/-- **C9.** For an aggregation ISM with threshold `t`, `build` returns
`Ok(None)` when fewer than `t` sub-metadata builds succeed; otherwise it
returns a blob whose first `8·K` bytes (`K` = number of successes) are `K`
`(start, end)` pairs of big-endian u32 absolute byte offsets — pair `i` being
`start_i = 8·K +` total length of the preceding payloads and
`end_i = start_i +` length of payload `i`, so an empty payload has
`start = end` — followed by the payloads concatenated in order. -/
theorem aggregation_build_layout (threshold : Nat)
    (subs : List (Option (List Nat))) :
    (((subs.filterMap id).length < threshold →
        aggregation_build threshold subs = none))
    ∧ (threshold ≤ (subs.filterMap id).length →
        aggregation_build threshold subs
          = some (aggregation_ranges (8 * (subs.filterMap id).length)
              (subs.filterMap id) ++ (subs.filterMap id).join)
        ∧ (aggregation_ranges (8 * (subs.filterMap id).length)
            (subs.filterMap id)).length = 8 * (subs.filterMap id).length
        ∧ (∀ i, i < (subs.filterMap id).length →
            ((aggregation_ranges (8 * (subs.filterMap id).length)
                (subs.filterMap id)).drop (8 * i)).take 8
              = encode_byte_index (8 * (subs.filterMap id).length
                  + (((subs.filterMap id).take i).map List.length).sum)
                ++ encode_byte_index (8 * (subs.filterMap id).length
                  + (((subs.filterMap id).take (i + 1)).map List.length).sum))) := by
  constructor
  · intro hlt
    unfold aggregation_build
    rw [if_pos hlt]
  · intro hge
    refine ⟨?_, aggregation_ranges_length _ _, ?_⟩
    · unfold aggregation_build
      rw [if_neg (by omega), format_metadata_eq]
    · intro i hi
      exact aggregation_ranges_slice _ _ i hi

/-- Witness for C9: three sub-builds, one failing; threshold 2 is met by the
two successes `[170]` and `[]`.  The blob is the two offset pairs
`(16, 17), (17, 17)` followed by the byte `170`; with threshold 3 the build
returns `none`. -/
theorem aggregation_build_layout_witness :
    aggregation_build 2 [some [170], none, some []]
      = some [0, 0, 0, 16, 0, 0, 0, 17, 0, 0, 0, 17, 0, 0, 0, 17, 170]
    ∧ ((aggregation_ranges (8 * 2) [[170], []]).drop (8 * 1)).take 8
        = encode_byte_index 17 ++ encode_byte_index 17
    ∧ aggregation_build 3 [some [170], none, some []] = none := by
  have h := aggregation_build_layout 2 [some [170], none, some []]
  have h3 := aggregation_build_layout 3 [some [170], none, some []]
  have hge := h.2 (by decide)
  refine ⟨?_, ?_, h3.1 (by decide)⟩
  · rw [hge.1]
    decide
  · have := hge.2.2 1 (by decide)
    simpa using this

/-- **C6.** For a pending message in the submitted state (and past its
backoff), `confirm()` on a provider error while querying `delivered(id)`
returns `NotReady`, increments the retry count, and leaves
`submitted = true`; when `delivered(id)` returns `false`, `confirm` resets
the attempt count and then repreparse (`on_reprepare` bumps the freshly reset
count to 1 and schedules the 10 s backoff), returning `Reprepare` with the
message marked unsubmitted. -/
theorem confirm_error_and_undelivered_behavior (now : Nat) (env : ConfirmEnv)
    (s : PendingMessageState) :
    s.submitted = true →
    is_ready now s = true →
    (env.delivered = none →
      confirm now env s = (PendingOperationResult.notReady, inc_attempts now s)
      ∧ (confirm now env s).2.submitted = true
      ∧ (confirm now env s).2.num_retries = s.num_retries + 1)
    ∧ (env.delivered = some false →
      confirm now env s = on_reprepare now (reset_attempts now s)
      ∧ (confirm now env s).1 = PendingOperationResult.reprepare
      ∧ (confirm now env s).2.submitted = false
      ∧ (confirm now env s).2.num_retries = 1
      ∧ (confirm now env s).2.next_attempt_after = some (now + 10)) := by
  intro hsub hready
  constructor
  · intro hdel
    unfold confirm
    rw [if_neg (by simp [hready]), hdel]
    refine ⟨rfl, ?_, rfl⟩
    simp [inc_attempts, hsub]
  · intro hdel
    unfold confirm
    rw [if_neg (by simp [hready]), hdel]
    refine ⟨rfl, rfl, rfl, rfl, rfl⟩

/-- Witness for C6: a submitted message with 5 prior retries; on a provider
error confirm reports NotReady with 6 retries and still submitted; on
`delivered = false` confirm repreparse with the count reset (then bumped
to 1), unsubmitted, rescheduled 10 s out. -/
theorem confirm_error_and_undelivered_behavior_witness :
    let s : PendingMessageState :=
      { submitted := true, submission_data := none, num_retries := 5
        last_attempted_at := 0, next_attempt_after := some 100 }
    ((confirm 100 { delivered := none, record_success_ok := true } s).1
        = PendingOperationResult.notReady
      ∧ (confirm 100 { delivered := none, record_success_ok := true } s).2.submitted = true
      ∧ (confirm 100 { delivered := none, record_success_ok := true } s).2.num_retries = 6)
    ∧ ((confirm 100 { delivered := some false, record_success_ok := true } s).1
        = PendingOperationResult.reprepare
      ∧ (confirm 100 { delivered := some false, record_success_ok := true } s).2.submitted
          = false
      ∧ (confirm 100 { delivered := some false, record_success_ok := true } s).2.num_retries
          = 1
      ∧ (confirm 100 { delivered := some false, record_success_ok := true } s).2.next_attempt_after
          = some 110) := by
  intro s
  have hA := confirm_error_and_undelivered_behavior 100
    { delivered := none, record_success_ok := true } s rfl (by decide)
  have hB := confirm_error_and_undelivered_behavior 100
    { delivered := some false, record_success_ok := true } s rfl (by decide)
  have hA1 := hA.1 rfl
  have hB1 := hB.2 rfl
  exact ⟨⟨by rw [hA1.1], hA1.2.1, hA1.2.2⟩, ⟨hB1.2.1, hB1.2.2.1, hB1.2.2.2.1, hB1.2.2.2.2⟩⟩

/-! ## Validator submitter
Embeds `agents/validator/src/submit.rs`
(`submit_checkpoints_until_correctness_checkpoint`,
`sign_and_submit_checkpoints`, `tree_exceeds_checkpoint`). -/

/-- Modelled from the spec: the 32-level incremental Merkle accumulator
(`hyperlane-core` `accumulator::incremental`) is not present under `src/`.
Per §4.1 it is an append-only tree with a leaf count whose `index()` is
`count - 1` and whose root is determined by the sequence of ingested leaves;
for the checkpoint-consistency claim only those observables matter, so the
tree is modelled by its list of ingested leaves and the root by an injective
fold over them. -/
structure IncrementalMerkle where
  leaves : List Nat
deriving Repr, DecidableEq

def IncrementalMerkle.count (t : IncrementalMerkle) : Nat := t.leaves.length

def IncrementalMerkle.treeIndex (t : IncrementalMerkle) : Nat := t.count - 1

def IncrementalMerkle.root (t : IncrementalMerkle) : Nat :=
  t.leaves.foldl Nat.pair 0

def IncrementalMerkle.ingest (t : IncrementalMerkle) (leaf : Nat) :
    IncrementalMerkle := ⟨t.leaves ++ [leaf]⟩

/-- `Checkpoint` (hyperlane-core). -/
structure Checkpoint where
  root : Nat
  index : Nat
  merkle_tree_hook_address : Nat
  mailbox_domain : Nat
deriving Repr, DecidableEq

/-- `CheckpointWithMessageId`. -/
structure CheckpointWithMessageId where
  checkpoint : Checkpoint
  message_id : Nat
deriving Repr, DecidableEq

/-- `ValidatorSubmitter::checkpoint`: the checkpoint of the current tree. -/
def mkCheckpoint (addr dom : Nat) (tree : IncrementalMerkle) : Checkpoint :=
  { root := tree.root
    index := tree.treeIndex
    merkle_tree_hook_address := addr
    mailbox_domain := dom }

/-- `tree_exceeds_checkpoint`: `checkpoint.index + 1 < tree.count()`. -/
def tree_exceeds_checkpoint (checkpoint : Checkpoint)
    (tree : IncrementalMerkle) : Bool :=
  checkpoint.index + 1 < tree.count

/-- The ingestion loop of `submit_checkpoints_until_correctness_checkpoint`:
while the correctness index has not been reached, read the merkle-tree
insertion at leaf index `tree.count` from the origin store
(`db : leaf index → message id`), ingest it and queue the checkpoint taken
immediately afterwards.  `none` models the loop spinning forever
(`sleep(100ms)` and retry) on a leaf the store never provides. -/
def ingest_message_ids (db : Nat → Option Nat) (addr dom target_index : Nat)
    (tree : IncrementalMerkle) (queue : List CheckpointWithMessageId) :
    Option (IncrementalMerkle × List CheckpointWithMessageId) :=
  if h : target_index + 1 > tree.count then
    match db tree.count with
    | none => none
    | some message_id =>
        ingest_message_ids db addr dom target_index (tree.ingest message_id)
          (queue ++ [⟨mkCheckpoint addr dom (tree.ingest message_id), message_id⟩])
  else some (tree, queue)
termination_by target_index + 1 - tree.count
decreasing_by
  simp only [IncrementalMerkle.ingest, IncrementalMerkle.count,
    List.length_append, List.length_cons, List.length_nil] at *
  omega

/-- `sign_and_submit_checkpoints`: publish each queued checkpoint whose index
is not already present at the checkpoint store (`existing`); existing indices
are skipped. -/
def sign_and_submit_checkpoints (existing : Nat → Bool)
    (checkpoints : List CheckpointWithMessageId) :
    List CheckpointWithMessageId :=
  checkpoints.filter (fun c => ! existing c.checkpoint.index)

/-- Outcome of `submit_checkpoints_until_correctness_checkpoint`: an
`assert!`/`assert_eq!` panic, the ingestion loop blocking forever, the
`bail!` on checkpoint mismatch, or success together with the published
checkpoints and the final tree. -/
inductive SubmitCheckpointsOutcome where
  | panicked
  | blocked
  | bailed
  | published (cps : List CheckpointWithMessageId) (tree : IncrementalMerkle)
deriving Repr, DecidableEq

/-- `submit_checkpoints_until_correctness_checkpoint`: assert the tree is not
ahead of the correctness checkpoint, ingest up to its index, assert the index
matches, bail if the recomputed checkpoint differs, else sign and submit the
queued checkpoints. -/
def submit_checkpoints_until_correctness_checkpoint (db : Nat → Option Nat)
    (existing : Nat → Bool) (addr dom : Nat) (tree : IncrementalMerkle)
    (correctness_checkpoint : Checkpoint) : SubmitCheckpointsOutcome :=
  if tree_exceeds_checkpoint correctness_checkpoint tree then .panicked
  else
    match ingest_message_ids db addr dom correctness_checkpoint.index tree [] with
    | none => .blocked
    | some (tree', checkpoint_queue) =>
        if correctness_checkpoint.index ≠ tree'.treeIndex then .panicked
        else if mkCheckpoint addr dom tree' ≠ correctness_checkpoint then .bailed
        else .published (sign_and_submit_checkpoints existing checkpoint_queue) tree'

theorem ingest_message_ids_step {db : Nat → Option Nat} {addr dom ti : Nat}
    {tree : IncrementalMerkle} {queue : List CheckpointWithMessageId}
    (h : ti + 1 > tree.count) :
    ingest_message_ids db addr dom ti tree queue
      = match db tree.count with
        | none => none
        | some message_id =>
            ingest_message_ids db addr dom ti (tree.ingest message_id)
              (queue ++ [⟨mkCheckpoint addr dom (tree.ingest message_id), message_id⟩]) := by
  rw [ingest_message_ids, dif_pos h]

theorem ingest_message_ids_done {db : Nat → Option Nat} {addr dom ti : Nat}
    {tree : IncrementalMerkle} {queue : List CheckpointWithMessageId}
    (h : ¬ ti + 1 > tree.count) :
    ingest_message_ids db addr dom ti tree queue = some (tree, queue) := by
  rw [ingest_message_ids, dif_neg h]

/-- Invariants of the ingestion loop: starting at or below the target it ends
exactly at `target_index + 1` leaves, the count never shrinks, and every
queued checkpoint not already queued at entry has an index at most
`target_index` and below the final count. -/
theorem ingest_message_ids_spec (db : Nat → Option Nat) (addr dom ti : Nat) :
    ∀ (fuel : Nat) (tree : IncrementalMerkle)
      (queue : List CheckpointWithMessageId)
      (tree' : IncrementalMerkle) (queue' : List CheckpointWithMessageId),
      ti + 1 - tree.count ≤ fuel →
      ingest_message_ids db addr dom ti tree queue = some (tree', queue') →
      (tree.count ≤ ti + 1 → tree'.count = ti + 1)
      ∧ tree.count ≤ tree'.count
      ∧ (∀ c ∈ queue', c ∈ queue
          ∨ (c.checkpoint.index ≤ ti ∧ c.checkpoint.index + 1 ≤ tree'.count)) := by
  intro fuel
  induction fuel with
  | zero =>
      intro tree queue tree' queue' hfuel h
      have hc : ti + 1 ≤ tree.count := by omega
      rw [ingest_message_ids, dif_neg (by omega)] at h
      simp at h
      obtain ⟨h1, h2⟩ := h
      subst h1; subst h2
      exact ⟨fun h => by omega, le_refl _, fun c hc => Or.inl hc⟩
  | succ n ih =>
      intro tree queue tree' queue' hfuel h
      rw [ingest_message_ids] at h
      by_cases hcond : ti + 1 > tree.count
      · rw [dif_pos hcond] at h
        rcases hdb : db tree.count with _ | mid
        · rw [hdb] at h; simp at h
        · rw [hdb] at h
          have hcount : (tree.ingest mid).count = tree.count + 1 := by
            simp [IncrementalMerkle.ingest, IncrementalMerkle.count]
          have hfuel2 : ti + 1 - (tree.ingest mid).count ≤ n := by
            rw [hcount]; omega
          obtain ⟨p1, p2, p3⟩ := ih (tree.ingest mid)
            (queue ++ [⟨mkCheckpoint addr dom (tree.ingest mid), mid⟩])
            tree' queue' hfuel2 h
          refine ⟨fun _ => p1 (by omega), by omega, ?_⟩
          intro c hcmem
          rcases p3 c hcmem with hin | hprop
          · rcases List.mem_append.mp hin with hin | hin
            · exact Or.inl hin
            · simp at hin
              subst hin
              refine Or.inr ⟨?_, ?_⟩
              · show (mkCheckpoint addr dom (tree.ingest mid)).index ≤ ti
                simp [mkCheckpoint, IncrementalMerkle.treeIndex, hcount]
                omega
              · show (mkCheckpoint addr dom (tree.ingest mid)).index + 1 ≤ tree'.count
                simp only [mkCheckpoint, IncrementalMerkle.treeIndex, hcount]
                omega
          · exact Or.inr hprop
      · rw [dif_neg hcond] at h
        simp at h
        obtain ⟨h1, h2⟩ := h
        subst h1; subst h2
        exact ⟨fun h => by omega, le_refl _, fun c hc => Or.inl hc⟩

/-- **C8.** When the submitter has ingested leaves until the tree count
reaches the correctness checkpoint's index + 1 (the ingestion loop returned),
the `assert_eq` on the index always passes; if the locally recomputed
checkpoint differs from the correctness checkpoint the function errors
(`bail!`) publishing nothing; when publishing occurs, every published
checkpoint was queued immediately after a leaf ingestion, so its index is at
most the correctness index and strictly below the tree's count. -/
theorem validator_submit_checkpoint_consistency (db : Nat → Option Nat)
    (existing : Nat → Bool) (addr dom : Nat) (tree : IncrementalMerkle)
    (cp : Checkpoint) (tree' : IncrementalMerkle)
    (queue : List CheckpointWithMessageId) :
    tree_exceeds_checkpoint cp tree = false →
    ingest_message_ids db addr dom cp.index tree [] = some (tree', queue) →
    (submit_checkpoints_until_correctness_checkpoint db existing addr dom tree cp
        ≠ SubmitCheckpointsOutcome.panicked)
    ∧ (mkCheckpoint addr dom tree' ≠ cp →
        submit_checkpoints_until_correctness_checkpoint db existing addr dom tree cp
          = SubmitCheckpointsOutcome.bailed)
    ∧ (mkCheckpoint addr dom tree' = cp →
        submit_checkpoints_until_correctness_checkpoint db existing addr dom tree cp
          = SubmitCheckpointsOutcome.published
              (sign_and_submit_checkpoints existing queue) tree'
        ∧ ∀ c ∈ sign_and_submit_checkpoints existing queue,
            c.checkpoint.index ≤ cp.index ∧ c.checkpoint.index < tree'.count) := by
  intro hroom hing
  have hcount : tree.count ≤ cp.index + 1 := by
    unfold tree_exceeds_checkpoint at hroom
    simp at hroom
    omega
  obtain ⟨p1, _, p3⟩ := ingest_message_ids_spec db addr dom cp.index
    (cp.index + 1 - tree.count) tree [] tree' queue (le_refl _) hing
  have hfinal : tree'.count = cp.index + 1 := p1 hcount
  have hidx : tree'.treeIndex = cp.index := by
    unfold IncrementalMerkle.treeIndex
    omega
  have hbody : submit_checkpoints_until_correctness_checkpoint db existing addr dom tree cp
      = if mkCheckpoint addr dom tree' ≠ cp then SubmitCheckpointsOutcome.bailed
        else SubmitCheckpointsOutcome.published
          (sign_and_submit_checkpoints existing queue) tree' := by
    unfold submit_checkpoints_until_correctness_checkpoint
    rw [if_neg (by simp [hroom])]
    simp only [hing, hidx]
    simp
  refine ⟨?_, ?_, ?_⟩
  · rw [hbody]
    by_cases hmk : mkCheckpoint addr dom tree' = cp <;> simp [hmk]
  · intro hne
    rw [hbody, if_pos hne]
  · intro heq
    rw [hbody, if_neg (by simp [heq])]
    refine ⟨rfl, ?_⟩
    intro c hcmem
    have hcq : c ∈ queue := List.mem_of_mem_filter hcmem
    rcases p3 c hcq with hin | ⟨hle, hlt⟩
    · simp at hin
    · exact ⟨hle, by omega⟩

/-- Witness for C8: a store holding message ids 11, 12 for leaves 0, 1; the
correct correctness checkpoint at index 1 publishes both queued checkpoints
(indices 0, 1 ≤ 1, both < count 2); a correctness checkpoint with a wrong
root bails. -/
theorem validator_submit_checkpoint_consistency_witness :
    (submit_checkpoints_until_correctness_checkpoint
        (fun i => if i = 0 then some 11 else if i = 1 then some 12 else none)
        (fun _ => false) 5 6 ⟨[]⟩
        { root := Nat.pair (Nat.pair 0 11) 12, index := 1
          merkle_tree_hook_address := 5, mailbox_domain := 6 }
      = SubmitCheckpointsOutcome.published
          [⟨{ root := Nat.pair 0 11, index := 0
              merkle_tree_hook_address := 5, mailbox_domain := 6 }, 11⟩,
           ⟨{ root := Nat.pair (Nat.pair 0 11) 12, index := 1
              merkle_tree_hook_address := 5, mailbox_domain := 6 }, 12⟩]
          ⟨[11, 12]⟩)
    ∧ (submit_checkpoints_until_correctness_checkpoint
        (fun i => if i = 0 then some 11 else if i = 1 then some 12 else none)
        (fun _ => false) 5 6 ⟨[]⟩
        { root := Nat.pair (Nat.pair 0 11) 12 + 1, index := 1
          merkle_tree_hook_address := 5, mailbox_domain := 6 }
      = SubmitCheckpointsOutcome.bailed) := by
  have hing : ingest_message_ids
      (fun i => if i = 0 then some 11 else if i = 1 then some 12 else none)
      5 6 1 ⟨[]⟩ []
      = some (⟨[11, 12]⟩,
          [⟨{ root := Nat.pair 0 11, index := 0
              merkle_tree_hook_address := 5, mailbox_domain := 6 }, 11⟩,
           ⟨{ root := Nat.pair (Nat.pair 0 11) 12, index := 1
              merkle_tree_hook_address := 5, mailbox_domain := 6 }, 12⟩]) := by
    rw [ingest_message_ids_step (by decide)]
    show ingest_message_ids _ 5 6 1 ⟨[11]⟩ [⟨mkCheckpoint 5 6 ⟨[11]⟩, 11⟩] = _
    rw [ingest_message_ids_step (by decide)]
    show ingest_message_ids _ 5 6 1 ⟨[11, 12]⟩
      [⟨mkCheckpoint 5 6 ⟨[11]⟩, 11⟩, ⟨mkCheckpoint 5 6 ⟨[11, 12]⟩, 12⟩] = _
    rw [ingest_message_ids_done (by decide)]
    rfl
  have h1 := validator_submit_checkpoint_consistency
    (fun i => if i = 0 then some 11 else if i = 1 then some 12 else none)
    (fun _ => false) 5 6 ⟨[]⟩
    { root := Nat.pair (Nat.pair 0 11) 12, index := 1
      merkle_tree_hook_address := 5, mailbox_domain := 6 }
    ⟨[11, 12]⟩ _ (by decide) hing
  have h2 := validator_submit_checkpoint_consistency
    (fun i => if i = 0 then some 11 else if i = 1 then some 12 else none)
    (fun _ => false) 5 6 ⟨[]⟩
    { root := Nat.pair (Nat.pair 0 11) 12 + 1, index := 1
      merkle_tree_hook_address := 5, mailbox_domain := 6 }
    ⟨[11, 12]⟩ _ (by decide) hing
  constructor
  · have heq : mkCheckpoint 5 6 (⟨[11, 12]⟩ : IncrementalMerkle)
        = { root := Nat.pair (Nat.pair 0 11) 12, index := 1
            merkle_tree_hook_address := 5, mailbox_domain := 6 } := by
      simp [mkCheckpoint, IncrementalMerkle.root, IncrementalMerkle.treeIndex,
        IncrementalMerkle.count]
    have := (h1.2.2 heq).1
    rw [this]
    rfl
  · refine h2.2.1 ?_
    intro habs
    have hr : (mkCheckpoint 5 6 (⟨[11, 12]⟩ : IncrementalMerkle)).root
        = Nat.pair (Nat.pair 0 11) 12 + 1 := by rw [habs]
    simp [mkCheckpoint, IncrementalMerkle.root] at hr

/-! ## Multisig checkpoint syncer
Embeds `hyperlane-base/src/types/multisig.rs`
(`fetch_checkpoint_in_range`, `fetch_checkpoint`,
`fetch_highest_quorum_index`, `ValidatorSignedCheckpoints`).

The per-validator checkpoint stores are modelled by a single oracle
`fetchCp : validator address → index → Option SignedCp`; `none` covers a
missing syncer, an `Err` from the store and `Ok(None)` alike (the code treats
all three as "no checkpoint from this validator" via
`if let Ok(Some(...)) = ...`).  A fetched signed checkpoint carries the
checkpoint values (`index`, `root`), the result of `recover()` on its
signature (`recovered`; `none` is a recovery error, which the code propagates
with `?`), and an opaque signature payload. -/

/-- `ValidatorWithWeight`. -/
structure ValidatorWithWeight where
  validator : Nat
  weight : Nat
deriving Repr, DecidableEq

/-- A validator's signed checkpoint as fetched from its store. -/
structure SignedCp where
  index : Nat
  root : Nat
  recovered : Option Nat
  sig : Nat
deriving Repr, DecidableEq

/-- `ValidatorSignedCheckpoint` (a signed checkpoint plus the validator's
weight and its position in the declared on-chain validator set). -/
structure SigEntry where
  signed_checkpoint : SignedCp
  weight : Nat
  ism_index : Nat
deriving Repr, DecidableEq

/-- `ValidatorSignedCheckpoints`: the accumulated signed checkpoints for one
root. -/
structure RootGroup where
  cumulative_weight : Nat
  signed_checkpoints : List SigEntry
deriving Repr, DecidableEq

/-- `Default::default()` for `ValidatorSignedCheckpoints`. -/
def RootGroup.empty : RootGroup := ⟨0, []⟩

/-- `ValidatorSignedCheckpoints::push`. -/
def RootGroup.push (g : RootGroup) (e : SigEntry) : RootGroup :=
  { cumulative_weight := g.cumulative_weight + e.weight
    signed_checkpoints := g.signed_checkpoints ++ [e] }

/-- The multisig checkpoint, with each signature kept together with its
provenance (`SigEntry`), so the recovery and ordering claims are statable;
the Rust value carries the checkpoint (taken from the first sorted entry) and
the bare signatures in the same order. -/
structure MultisigSignedCheckpoint where
  index : Nat
  root : Nat
  entries : List SigEntry
deriving Repr, DecidableEq

/-- Stable ascending insertion by `ism_index`
(`sort_by_key(|sc| sc.ism_index)`). -/
def insertByIsmIndex (x : SigEntry) : List SigEntry → List SigEntry
  | [] => [x]
  | y :: ys =>
      if y.ism_index ≥ x.ism_index then x :: y :: ys
      else y :: insertByIsmIndex x ys

def sortByIsmIndex : List SigEntry → List SigEntry
  | [] => []
  | x :: xs => insertByIsmIndex x (sortByIsmIndex xs)

/-- `ValidatorSignedCheckpoints::into_multisig_checkpoint`: sort by
`ism_index`, error (`none`) when empty, else take the checkpoint from the
first entry and keep the signatures in sorted order. -/
def into_multisig_checkpoint (g : RootGroup) : Option MultisigSignedCheckpoint :=
  match sortByIsmIndex g.signed_checkpoints with
  | [] => none
  | first :: rest =>
      some { index := first.signed_checkpoint.index
             root := first.signed_checkpoint.root
             entries := first :: rest }

/-- The `signed_checkpoints_per_root` hash map, as an association list;
`entry(root).or_default().push(e)`. -/
def updateGroup : List (Nat × RootGroup) → Nat → SigEntry → List (Nat × RootGroup)
  | [], root, e => [(root, RootGroup.push RootGroup.empty e)]
  | (r, g) :: rest, root, e =>
      if r = root then (r, g.push e) :: rest
      else (r, g) :: updateGroup rest root e

def lookupGroup (m : List (Nat × RootGroup)) (root : Nat) : RootGroup :=
  match m.find? (fun p => p.1 == root) with
  | some p => p.2
  | none => RootGroup.empty

/-- Stable descending insertion of enumerated validators by weight
(`sorted_by_key(|(_, vw)| Reverse(vw.weight))`, a stable sort; the original
position breaks ties, which is exactly what stability means since the
enumerate positions are strictly increasing). -/
def insertByWeightDesc (x : Nat × ValidatorWithWeight) :
    List (Nat × ValidatorWithWeight) → List (Nat × ValidatorWithWeight)
  | [] => [x]
  | y :: ys =>
      if x.2.weight > y.2.weight ∨ (x.2.weight = y.2.weight ∧ x.1 < y.1)
      then x :: y :: ys
      else y :: insertByWeightDesc x ys

def sortValidatorsByWeightDesc (wv : List ValidatorWithWeight) :
    List (Nat × ValidatorWithWeight) :=
  let rec go : List (Nat × ValidatorWithWeight) → List (Nat × ValidatorWithWeight)
    | [] => []
    | x :: xs => insertByWeightDesc x (go xs)
  go wv.enum

/-- The body of `fetch_checkpoint`: walk the weight-sorted validators,
skipping validators with no usable response, erroring on a signature that
fails to recover, skipping signatures for a different index or recovering to
a different address, and grouping acceptable signed checkpoints by root until
one root's cumulative weight reaches the threshold. -/
def fetch_checkpoint_loop (fetchCp : Nat → Nat → Option SignedCp)
    (index threshold : Nat) :
    List (Nat × ValidatorWithWeight) → List (Nat × RootGroup) →
    Except Unit (Option MultisigSignedCheckpoint)
  | [], _ => .ok none
  | (ism_index, vw) :: rest, per_root =>
      match fetchCp vw.validator index with
      | none => fetch_checkpoint_loop fetchCp index threshold rest per_root
      | some sc =>
          if sc.index ≠ index then
            fetch_checkpoint_loop fetchCp index threshold rest per_root
          else
            match sc.recovered with
            | none => .error ()
            | some signer =>
                if signer ≠ vw.validator then
                  fetch_checkpoint_loop fetchCp index threshold rest per_root
                else
                  let m2 := updateGroup per_root sc.root ⟨sc, vw.weight, ism_index⟩
                  let group := lookupGroup m2 sc.root
                  if group.cumulative_weight ≥ threshold then
                    match into_multisig_checkpoint group with
                    | some checkpoint => .ok (some checkpoint)
                    | none => .ok none
                  else fetch_checkpoint_loop fetchCp index threshold rest m2

/-- `MultisigCheckpointSyncer::fetch_checkpoint`. -/
def multisig_fetch_checkpoint (fetchCp : Nat → Nat → Option SignedCp)
    (weighted_validators : List ValidatorWithWeight)
    (threshold_weight index : Nat) :
    Except Unit (Option MultisigSignedCheckpoint) :=
  fetch_checkpoint_loop fetchCp index threshold_weight
    (sortValidatorsByWeightDesc weighted_validators) []

/-- `weight_dict`: fold of `*entry(v).or_insert(0) += weight` — the map sends
each declared validator to the sum of its declared weights. -/
def weight_dict (wv : List ValidatorWithWeight) (a : Nat) : Option Nat :=
  if wv.any (fun v => v.validator == a) then
    some ((wv.filter (fun v => v.validator == a)).foldl (fun s v => s + v.weight) 0)
  else none

/-- One iteration's accumulator update in `fetch_highest_quorum_index`: count
the validator's weight if it is in the dict and not yet included. -/
def fhqi_step (dict : Nat → Option Nat) (cumulative_weight : Nat)
    (included : List Nat) (validator : Nat) : Nat × List Nat :=
  if validator ∉ included then
    match dict validator with
    | some w => (cumulative_weight + w, validator :: included)
    | none => (cumulative_weight, included)
  else (cumulative_weight, included)

/-- The loop of `fetch_highest_quorum_index`: accumulate each not-yet-counted
validator's weight and return the current index once the threshold is
reached. -/
def fhqi_loop (dict : Nat → Option Nat) (threshold : Nat) :
    List (Nat × Nat) → Nat → List Nat → Option Nat
  | [], _, _ => none
  | (validator, idx) :: rest, cumulative_weight, included =>
      if (fhqi_step dict cumulative_weight included validator).1 ≥ threshold then
        some idx
      else
        fhqi_loop dict threshold rest
          (fhqi_step dict cumulative_weight included validator).1
          (fhqi_step dict cumulative_weight included validator).2

/-- `MultisigCheckpointSyncer::fetch_highest_quorum_index`. -/
def fetch_highest_quorum_index (wv : List ValidatorWithWeight)
    (threshold_weight : Nat) (sorted_indices : List (Nat × Nat)) : Option Nat :=
  fhqi_loop (weight_dict wv) threshold_weight sorted_indices 0 []

/-- Stable descending insertion by latest index
(`sort_by(|a, b| b.1.cmp(&a.1))`, a stable sort). -/
def insertByIndexDesc (x : Nat × Nat) : List (Nat × Nat) → List (Nat × Nat)
  | [] => [x]
  | y :: ys => if x.2 ≥ y.2 then x :: y :: ys else y :: insertByIndexDesc x ys

def sortByIndexDesc : List (Nat × Nat) → List (Nat × Nat)
  | [] => []
  | x :: xs => insertByIndexDesc x (sortByIndexDesc xs)

/-- The `for index in (minimum_index..=start_index).rev()` loop: try each
index (descending), returning the first quorum checkpoint; an `Err` or
`Ok(None)` from `fetch_checkpoint` moves on to the next index. -/
def first_quorum (fetchCp : Nat → Nat → Option SignedCp)
    (wv : List ValidatorWithWeight) (threshold : Nat) :
    List Nat → Option MultisigSignedCheckpoint
  | [] => none
  | i :: rest =>
      match multisig_fetch_checkpoint fetchCp wv threshold i with
      | .ok (some checkpoint) => some checkpoint
      | _ => first_quorum fetchCp wv threshold rest

/-- `MultisigCheckpointSyncer::fetch_checkpoint_in_range`, as a function of
the latest indices reported by the validators (`latest_indices`, the result
of `get_validator_latest_checkpoints_and_update_metrics`). -/
def fetch_checkpoint_in_range (fetchCp : Nat → Nat → Option SignedCp)
    (weighted_validators : List ValidatorWithWeight)
    (threshold_weight minimum_index maximum_index : Nat)
    (latest_indices : List (Nat × Nat)) : Option MultisigSignedCheckpoint :=
  if latest_indices.isEmpty then none
  else
    match fetch_highest_quorum_index weighted_validators threshold_weight
        (sortByIndexDesc latest_indices) with
    | some highest_quorum_index =>
        let start_index := min highest_quorum_index maximum_index
        if minimum_index > start_index then none
        else
          first_quorum fetchCp weighted_validators threshold_weight
            ((List.range' minimum_index (start_index + 1 - minimum_index)).reverse)
    | none => none

/-- Spec-side: the cumulative weight of the unique validators seen so far
(each declared validator counted once with its total declared weight;
unknown validators contribute nothing). -/
def unique_quorum_weight (wv : List ValidatorWithWeight)
    (seen : List (Nat × Nat)) : Nat :=
  ((seen.map Prod.fst).toFinset).sum (fun a => (weight_dict wv a).getD 0)

/-- Spec-side (the claim's words): the index at which the cumulative weight
of unique validators, scanning the reported latest indices in descending
order, first reaches the threshold. -/
def highest_quorum_index_spec (wv : List ValidatorWithWeight) (threshold : Nat)
    (sorted : List (Nat × Nat)) : Option Nat :=
  match (List.range sorted.length).find?
      (fun k => decide (threshold ≤ unique_quorum_weight wv (sorted.take (k + 1)))) with
  | some k => (sorted.get? k).map Prod.snd
  | none => none

theorem unique_quorum_weight_append (wv : List ValidatorWithWeight)
    (pre : List (Nat × Nat)) (e : Nat × Nat) :
    unique_quorum_weight wv (pre ++ [e])
      = if e.1 ∈ pre.map Prod.fst then unique_quorum_weight wv pre
        else unique_quorum_weight wv pre + (weight_dict wv e.1).getD 0 := by
  unfold unique_quorum_weight
  rw [List.map_append, List.toFinset_append]
  have hunion : (pre.map Prod.fst).toFinset ∪ ([e].map Prod.fst).toFinset
      = insert e.1 (pre.map Prod.fst).toFinset := by
    show (pre.map Prod.fst).toFinset ∪ [e.1].toFinset = _
    rw [List.toFinset_cons, List.toFinset_nil, Finset.union_comm]
    rw [Finset.insert_eq, Finset.insert_eq]
    simp
  rw [hunion]
  by_cases h : e.1 ∈ pre.map Prod.fst
  · rw [if_pos h]
    congr 1
    exact Finset.insert_eq_self.mpr (by simpa using h)
  · rw [if_neg h]
    rw [Finset.sum_insert (by simpa using h)]
    ring

/-- The `fetch_highest_quorum_index` loop meets the spec-side description:
starting from a processed prefix `pre` whose unique weight is
`cumulative_weight` and whose counted validators are `included`, it returns
the index of the first remaining entry at which the unique-validator weight
of the extended prefix reaches the threshold. -/
theorem fhqi_loop_spec (wv : List ValidatorWithWeight) (threshold : Nat)
    (rest : List (Nat × Nat)) :
    ∀ (pre : List (Nat × Nat)) (cumulative_weight : Nat) (included : List Nat),
      cumulative_weight = unique_quorum_weight wv pre →
      (∀ v, v ∈ included ↔ v ∈ pre.map Prod.fst ∧ (weight_dict wv v).isSome) →
      fhqi_loop (weight_dict wv) threshold rest cumulative_weight included
        = match (List.range rest.length).find?
            (fun k => decide (threshold ≤
              unique_quorum_weight wv (pre ++ rest.take (k + 1)))) with
          | some k => (rest.get? k).map Prod.snd
          | none => none := by
  induction rest with
  | nil =>
      intro pre cw included hcw hinc
      simp [fhqi_loop]
  | cons e rest ih =>
      intro pre cw included hcw hinc
      obtain ⟨v, idx⟩ := e
      rw [fhqi_loop]
      have hmemv : ∀ u : Nat, u ∈ (pre ++ [(v, idx)]).map Prod.fst
          ↔ u ∈ pre.map Prod.fst ∨ u = v := by
        intro u
        rw [List.map_append, List.mem_append]
        simp
      -- the updated accumulator equals the unique weight of the extended prefix
      have hstep : (fhqi_step (weight_dict wv) cw included v).1
            = unique_quorum_weight wv (pre ++ [(v, idx)]) := by
        rw [unique_quorum_weight_append]
        unfold fhqi_step
        by_cases hv : v ∈ included
        · have hpre := (hinc v).mp hv
          simp only [hv, not_true_eq_false, if_false, if_pos hpre.1]
          exact hcw
        · rw [if_pos hv]
          by_cases hpre : v ∈ pre.map Prod.fst
          · have hnone : weight_dict wv v = none := by
              rcases hd : weight_dict wv v with _ | w
              · rfl
              · exact absurd ((hinc v).mpr ⟨hpre, by rw [hd]; rfl⟩) hv
            rw [hnone, if_pos hpre]
            exact hcw
          · rw [if_neg hpre]
            rcases hd : weight_dict wv v with _ | w <;> simp [hd, hcw]
      have hstepinc :
          ∀ u, u ∈ (fhqi_step (weight_dict wv) cw included v).2
            ↔ u ∈ (pre ++ [(v, idx)]).map Prod.fst ∧ (weight_dict wv u).isSome := by
        intro u
        unfold fhqi_step
        by_cases hv : v ∈ included
        · simp only [hv, not_true_eq_false, if_false]
          rw [hinc u, hmemv u]
          constructor
          · rintro ⟨hu, hs⟩
            exact ⟨Or.inl hu, hs⟩
          · rintro ⟨hu | hu, hs⟩
            · exact ⟨hu, hs⟩
            · subst hu
              exact ⟨((hinc u).mp hv).1, hs⟩
        · rw [if_pos hv]
          rcases hd : weight_dict wv v with _ | w
          · rw [hinc u, hmemv u]
            constructor
            · rintro ⟨hu, hs⟩
              exact ⟨Or.inl hu, hs⟩
            · rintro ⟨hu | hu, hs⟩
              · exact ⟨hu, hs⟩
              · subst hu
                rw [hd] at hs
                simp at hs
          · rw [hmemv u]
            constructor
            · intro hu
              rcases List.mem_cons.mp hu with hu | hu
              · subst hu
                exact ⟨Or.inr rfl, by rw [hd]; rfl⟩
              · have := (hinc u).mp hu
                exact ⟨Or.inl this.1, this.2⟩
            · rintro ⟨hu | hu, hs⟩
              · exact List.mem_cons_of_mem v ((hinc u).mpr ⟨hu, hs⟩)
              · subst hu
                exact List.mem_cons_self u included
      have htake1 : ((v, idx) :: rest).take 1 = [(v, idx)] := rfl
      by_cases hthr : (fhqi_step (weight_dict wv) cw included v).1 ≥ threshold
      · rw [if_pos hthr]
        have h0 : threshold ≤ unique_quorum_weight wv (pre ++ ((v, idx) :: rest).take 1) := by
          rw [htake1, ← hstep]
          exact hthr
        rw [show ((v, idx) :: rest).length = rest.length + 1 from rfl]
        rw [List.range_succ_eq_map]
        rw [List.find?_cons_of_pos _ (by simpa using h0)]
        rfl
      · rw [if_neg hthr]
        rw [ih (pre ++ [(v, idx)]) _ _ hstep hstepinc]
        have hnot0 : ¬ threshold ≤ unique_quorum_weight wv (pre ++ ((v, idx) :: rest).take 1) := by
          rw [htake1, ← hstep]
          exact hthr
        rw [show ((v, idx) :: rest).length = rest.length + 1 from rfl]
        rw [List.range_succ_eq_map]
        rw [List.find?_cons_of_neg _ (by simpa using hnot0)]
        rw [List.find?_map]
        have hpred :
            ((fun k => decide (threshold ≤
              unique_quorum_weight wv (pre ++ ((v, idx) :: rest).take (k + 1)))) ∘ Nat.succ)
            = (fun k => decide (threshold ≤
              unique_quorum_weight wv ((pre ++ [(v, idx)]) ++ rest.take (k + 1)))) := by
          funext k
          simp [Function.comp, List.append_assoc]
        rw [hpred]
        rcases hfind : (List.range rest.length).find?
            (fun k => decide (threshold ≤
              unique_quorum_weight wv ((pre ++ [(v, idx)]) ++ rest.take (k + 1)))) with _ | k
        · simp
        · simp

/-- The loop equals the spec-side description (instance at the empty
prefix). -/
theorem fetch_highest_quorum_index_eq_spec (wv : List ValidatorWithWeight)
    (threshold : Nat) (sorted : List (Nat × Nat)) :
    fetch_highest_quorum_index wv threshold sorted
      = highest_quorum_index_spec wv threshold sorted := by
  unfold fetch_highest_quorum_index highest_quorum_index_spec
  rw [fhqi_loop_spec wv threshold sorted [] 0 []
    (by simp [unique_quorum_weight]) (by simp)]
  simp

/-- **C1.** For every validator set with weights, threshold weight and target
range `[minimum_index, maximum_index]`: `fetch_checkpoint_in_range` returns
`None` when the highest index at which the cumulative weight of unique
validators (scanning reported latest indices in descending order) first
reaches the threshold is below `minimum_index` (including when no such index
exists); otherwise it scans indices from
`min(highest_quorum_index, maximum_index)` down to `minimum_index` and
returns the first quorum checkpoint found, or `None` if no index in that
range yields a quorum (the scan is empty when even
`min(highest_quorum_index, maximum_index)` is below `minimum_index`). -/
theorem fetch_checkpoint_in_range_meets_spec (fetchCp : Nat → Nat → Option SignedCp)
    (wv : List ValidatorWithWeight) (threshold lo hi : Nat)
    (latest_indices : List (Nat × Nat)) :
    fetch_checkpoint_in_range fetchCp wv threshold lo hi latest_indices
      = match highest_quorum_index_spec wv threshold (sortByIndexDesc latest_indices) with
        | none => none
        | some h =>
            if h < lo then none
            else first_quorum fetchCp wv threshold
                ((List.range' lo (min h hi + 1 - lo)).reverse) := by
  unfold fetch_checkpoint_in_range
  by_cases hemp : latest_indices.isEmpty
  · have hnil : latest_indices = [] := by
      cases h : latest_indices with
      | nil => rfl
      | cons a l => rw [h] at hemp; simp at hemp
    subst hnil
    rw [if_pos (by simp)]
    show (none : Option MultisigSignedCheckpoint) = _
    rw [show sortByIndexDesc [] = [] from rfl]
    rw [show highest_quorum_index_spec wv threshold [] = none by
      unfold highest_quorum_index_spec; simp]
  · rw [if_neg hemp, fetch_highest_quorum_index_eq_spec]
    rcases hq : highest_quorum_index_spec wv threshold (sortByIndexDesc latest_indices)
      with _ | h
    · rfl
    · show (if lo > min h hi then none
          else first_quorum fetchCp wv threshold
            ((List.range' lo (min h hi + 1 - lo)).reverse))
        = if h < lo then none
          else first_quorum fetchCp wv threshold
            ((List.range' lo (min h hi + 1 - lo)).reverse)
      by_cases hlo : h < lo
      · rw [if_pos hlo, if_pos (by omega)]
      · rw [if_neg hlo]
        by_cases hstart : lo > min h hi
        · rw [if_pos hstart]
          have hzero : min h hi + 1 - lo = 0 := by omega
          rw [hzero]
          rfl
        · rw [if_neg hstart]

/-- A signature entry is acceptable for target `index` and root `root`: its
checkpoint is for that index and root, and its signature recovers to the
declared validator sitting at its `ism_index` in the on-chain set, with that
validator's weight. -/
def entryOk (wv : List ValidatorWithWeight) (index root : Nat)
    (e : SigEntry) : Prop :=
  e.signed_checkpoint.index = index
  ∧ e.signed_checkpoint.root = root
  ∧ ∃ vw, wv.get? e.ism_index = some vw
      ∧ e.signed_checkpoint.recovered = some vw.validator
      ∧ e.weight = vw.weight

/-- A per-root group is well-formed: its cumulative weight is the sum of its
entries' weights and every entry is acceptable for its root. -/
def groupOk (wv : List ValidatorWithWeight) (index root : Nat)
    (g : RootGroup) : Prop :=
  g.cumulative_weight = (g.signed_checkpoints.map SigEntry.weight).sum
  ∧ ∀ e ∈ g.signed_checkpoints, entryOk wv index root e

/-- Every group in the per-root map is well-formed. -/
def mapOk (wv : List ValidatorWithWeight) (index : Nat)
    (m : List (Nat × RootGroup)) : Prop :=
  ∀ p ∈ m, groupOk wv index p.1 p.2

theorem updateGroup_mapOk {wv : List ValidatorWithWeight} {index : Nat}
    {m : List (Nat × RootGroup)} {root : Nat} {e : SigEntry}
    (hm : mapOk wv index m) (he : entryOk wv index root e) :
    mapOk wv index (updateGroup m root e) := by
  induction m with
  | nil =>
      intro p hp
      simp [updateGroup] at hp
      subst hp
      refine ⟨by simp [RootGroup.push, RootGroup.empty], ?_⟩
      intro e' he'
      simp [RootGroup.push, RootGroup.empty] at he'
      subst he'
      exact he
  | cons q rest ih =>
      obtain ⟨r, g⟩ := q
      intro p hp
      unfold updateGroup at hp
      by_cases hr : r = root
      · rw [if_pos hr] at hp
        rcases List.mem_cons.mp hp with hp | hp
        · subst hp
          subst hr
          obtain ⟨hw, hents⟩ := hm (r, g) (List.mem_cons_self _ _)
          have hw2 : g.cumulative_weight
              = (g.signed_checkpoints.map SigEntry.weight).sum := hw
          have hents2 : ∀ e ∈ g.signed_checkpoints, entryOk wv index r e := hents
          refine ⟨?_, ?_⟩
          · simp [RootGroup.push, hw2]
          · intro e' he'
            simp only [RootGroup.push, List.mem_append, List.mem_singleton] at he'
            rcases he' with he' | he'
            · exact hents2 e' he'
            · subst he'; exact he
        · exact hm p (List.mem_cons_of_mem _ hp)
      · rw [if_neg hr] at hp
        rcases List.mem_cons.mp hp with hp | hp
        · subst hp
          exact hm (r, g) (List.mem_cons_self _ _)
        · exact ih (fun q hq => hm q (List.mem_cons_of_mem _ hq)) p hp

theorem lookupGroup_ok {wv : List ValidatorWithWeight} {index : Nat}
    {m : List (Nat × RootGroup)} (root : Nat) (hm : mapOk wv index m) :
    groupOk wv index root (lookupGroup m root) := by
  rcases hf : m.find? (fun p => p.1 == root) with _ | p
  · have hlg : lookupGroup m root = RootGroup.empty := by
      unfold lookupGroup
      rw [hf]
    rw [hlg]
    exact ⟨rfl, by intro e he; simp [RootGroup.empty] at he⟩
  · have hlg : lookupGroup m root = p.2 := by
      unfold lookupGroup
      rw [hf]
    rw [hlg]
    have hmem := List.mem_of_find?_eq_some hf
    have hkey : p.1 = root := by
      have := List.find?_some hf
      simpa using this
    have hgOk := hm p hmem
    rw [hkey] at hgOk
    exact hgOk

theorem insertByIsmIndex_perm (x : SigEntry) (l : List SigEntry) :
    (insertByIsmIndex x l).Perm (x :: l) := by
  induction l with
  | nil => simp [insertByIsmIndex]
  | cons y ys ih =>
      unfold insertByIsmIndex
      by_cases h : y.ism_index ≥ x.ism_index
      · rw [if_pos h]
      · rw [if_neg h]
        exact List.Perm.trans (List.Perm.cons y ih) (List.Perm.swap x y ys)

theorem sortByIsmIndex_perm (l : List SigEntry) :
    (sortByIsmIndex l).Perm l := by
  induction l with
  | nil => simp [sortByIsmIndex]
  | cons x xs ih =>
      exact List.Perm.trans (insertByIsmIndex_perm x (sortByIsmIndex xs))
        (List.Perm.cons x ih)

theorem insertByIsmIndex_pairwise (x : SigEntry) (l : List SigEntry)
    (h : l.Pairwise (fun a b => a.ism_index ≤ b.ism_index)) :
    (insertByIsmIndex x l).Pairwise (fun a b => a.ism_index ≤ b.ism_index) := by
  induction l with
  | nil => simp [insertByIsmIndex]
  | cons y ys ih =>
      rcases List.pairwise_cons.mp h with ⟨hy, hys⟩
      unfold insertByIsmIndex
      by_cases hxy : y.ism_index ≥ x.ism_index
      · rw [if_pos hxy]
        refine List.pairwise_cons.mpr ⟨?_, h⟩
        intro z hz
        rcases List.mem_cons.mp hz with hz | hz
        · subst hz; exact hxy
        · exact le_trans hxy (hy z hz)
      · rw [if_neg hxy]
        refine List.pairwise_cons.mpr ⟨?_, ih hys⟩
        intro z hz
        have hz2 : z ∈ x :: ys := (insertByIsmIndex_perm x ys).mem_iff.mp hz
        rcases List.mem_cons.mp hz2 with hz2 | hz2
        · subst hz2; omega
        · exact hy z hz2

theorem sortByIsmIndex_pairwise (l : List SigEntry) :
    (sortByIsmIndex l).Pairwise (fun a b => a.ism_index ≤ b.ism_index) := by
  induction l with
  | nil => simp [sortByIsmIndex]
  | cons x xs ih => exact insertByIsmIndex_pairwise x (sortByIsmIndex xs) ih

theorem into_multisig_checkpoint_ok {wv : List ValidatorWithWeight}
    {index root : Nat} {g : RootGroup} {mc : MultisigSignedCheckpoint}
    (hg : groupOk wv index root g)
    (h : into_multisig_checkpoint g = some mc) :
    mc.index = index ∧ mc.root = root
    ∧ (∀ e ∈ mc.entries, entryOk wv index root e)
    ∧ (mc.entries.map SigEntry.weight).sum = g.cumulative_weight
    ∧ mc.entries.Pairwise (fun a b => a.ism_index ≤ b.ism_index) := by
  obtain ⟨hw, hents⟩ := hg
  unfold into_multisig_checkpoint at h
  rcases hs : sortByIsmIndex g.signed_checkpoints with _ | ⟨first, rest⟩
  · rw [hs] at h; simp at h
  · rw [hs] at h
    simp at h
    subst h
    have hperm : (first :: rest).Perm g.signed_checkpoints := by
      rw [← hs]; exact sortByIsmIndex_perm _
    have hall : ∀ e ∈ (first :: rest), entryOk wv index root e := by
      intro e he
      exact hents e (hperm.mem_iff.mp he)
    have hfirst := hall first (List.mem_cons_self _ _)
    refine ⟨hfirst.1, hfirst.2.1, ?_, ?_, ?_⟩
    · intro e he
      exact hall e he
    · rw [hw]
      exact List.Perm.sum_eq (hperm.map SigEntry.weight)
    · rw [← hs]
      exact sortByIsmIndex_pairwise _

theorem insertByWeightDesc_perm (x : Nat × ValidatorWithWeight)
    (l : List (Nat × ValidatorWithWeight)) :
    (insertByWeightDesc x l).Perm (x :: l) := by
  induction l with
  | nil => simp [insertByWeightDesc]
  | cons y ys ih =>
      unfold insertByWeightDesc
      by_cases h : x.2.weight > y.2.weight ∨ (x.2.weight = y.2.weight ∧ x.1 < y.1)
      · rw [if_pos h]
      · rw [if_neg h]
        exact List.Perm.trans (List.Perm.cons y ih) (List.Perm.swap x y ys)

theorem sortValidatorsByWeightDesc_mem {wv : List ValidatorWithWeight}
    {p : Nat × ValidatorWithWeight}
    (h : p ∈ sortValidatorsByWeightDesc wv) : wv.get? p.1 = some p.2 := by
  have hperm : (sortValidatorsByWeightDesc wv).Perm wv.enum := by
    unfold sortValidatorsByWeightDesc
    suffices hgo : ∀ l : List (Nat × ValidatorWithWeight),
        (sortValidatorsByWeightDesc.go l).Perm l by
      exact hgo wv.enum
    intro l
    induction l with
    | nil => simp [sortValidatorsByWeightDesc.go]
    | cons x xs ih =>
        exact List.Perm.trans (insertByWeightDesc_perm x _)
          (List.Perm.cons x ih)
  have hmem : p ∈ wv.enum := hperm.mem_iff.mp h
  obtain ⟨i, vw⟩ := p
  exact List.mk_mem_enum_iff_get?.mp hmem

/-- The grouping loop of `fetch_checkpoint` only ever answers
`Ok(Some(checkpoint))` with a well-formed quorum checkpoint. -/
theorem fetch_checkpoint_loop_ok (fetchCp : Nat → Nat → Option SignedCp)
    (index threshold : Nat) (wv : List ValidatorWithWeight) :
    ∀ (vals : List (Nat × ValidatorWithWeight)) (m : List (Nat × RootGroup)),
      (∀ p ∈ vals, wv.get? p.1 = some p.2) →
      mapOk wv index m →
      ∀ mc, fetch_checkpoint_loop fetchCp index threshold vals m
          = .ok (some mc) →
        mc.index = index
        ∧ (∀ e ∈ mc.entries, entryOk wv index mc.root e)
        ∧ threshold ≤ (mc.entries.map SigEntry.weight).sum
        ∧ mc.entries.Pairwise (fun a b => a.ism_index ≤ b.ism_index) := by
  intro vals
  induction vals with
  | nil =>
      intro m _ _ mc h
      simp [fetch_checkpoint_loop] at h
  | cons q rest ih =>
      obtain ⟨ism_index, vw⟩ := q
      intro m hvals hm mc h
      have hvw : wv.get? ism_index = some vw :=
        hvals (ism_index, vw) (List.mem_cons_self _ _)
      have hrest : ∀ p ∈ rest, wv.get? p.1 = some p.2 :=
        fun p hp => hvals p (List.mem_cons_of_mem _ hp)
      rw [fetch_checkpoint_loop] at h
      rcases hf : fetchCp vw.validator index with _ | sc
      · simp only [hf] at h
        exact ih m hrest hm mc h
      · simp only [hf] at h
        by_cases hidx : sc.index ≠ index
        · rw [if_pos hidx] at h
          exact ih m hrest hm mc h
        · rw [if_neg hidx] at h
          rcases hrec : sc.recovered with _ | signer
          · simp only [hrec] at h
            exact Except.noConfusion h
          · simp only [hrec] at h
            by_cases hsig : signer ≠ vw.validator
            · rw [if_pos hsig] at h
              exact ih m hrest hm mc h
            · rw [if_neg hsig] at h
              have hidx2 : sc.index = index := by
                by_contra hc
                exact hidx hc
              have hsig2 : signer = vw.validator := by
                by_contra hc
                exact hsig hc
              have hentry : entryOk wv index sc.root ⟨sc, vw.weight, ism_index⟩ := by
                refine ⟨?_, rfl, vw, hvw, ?_, rfl⟩
                · show sc.index = index
                  exact hidx2
                · show sc.recovered = some vw.validator
                  rw [hrec, hsig2]
              have hm2 : mapOk wv index
                  (updateGroup m sc.root ⟨sc, vw.weight, ism_index⟩) :=
                updateGroup_mapOk hm hentry
              have hgroup : groupOk wv index sc.root
                  (lookupGroup (updateGroup m sc.root ⟨sc, vw.weight, ism_index⟩)
                    sc.root) :=
                lookupGroup_ok sc.root hm2
              by_cases hthr : (lookupGroup
                  (updateGroup m sc.root ⟨sc, vw.weight, ism_index⟩)
                  sc.root).cumulative_weight ≥ threshold
              · rw [if_pos hthr] at h
                rcases hmk : into_multisig_checkpoint (lookupGroup
                    (updateGroup m sc.root ⟨sc, vw.weight, ism_index⟩) sc.root)
                  with _ | checkpoint
                · rw [hmk] at h; simp at h
                · rw [hmk] at h
                  simp at h
                  subst h
                  obtain ⟨h1, h2, h3, h4, h5⟩ := into_multisig_checkpoint_ok hgroup hmk
                  refine ⟨h1, ?_, ?_, h5⟩
                  · rw [h2]
                    exact h3
                  · rw [h4]
                    exact hthr
              · rw [if_neg hthr] at h
                exact ih _ hrest hm2 mc h

/-- Mask one validator's store response at one index, as if that validator
had provided no checkpoint there. -/
def maskFetch (fetchCp : Nat → Nat → Option SignedCp) (v index : Nat) :
    Nat → Nat → Option SignedCp :=
  fun u i => if u = v ∧ i = index then none else fetchCp u i

/-- A validator whose fetched checkpoint is for a different index, or whose
signature recovers to an address other than the validator's, is skipped
without error: the loop behaves as if that validator had provided nothing. -/
theorem fetch_checkpoint_loop_skip (fetchCp : Nat → Nat → Option SignedCp)
    (index threshold v : Nat) (sc : SignedCp)
    (hf : fetchCp v index = some sc)
    (hskip : sc.index ≠ index ∨ ∃ a, sc.recovered = some a ∧ a ≠ v) :
    ∀ (vals : List (Nat × ValidatorWithWeight)) (m : List (Nat × RootGroup)),
      fetch_checkpoint_loop fetchCp index threshold vals m
        = fetch_checkpoint_loop (maskFetch fetchCp v index) index threshold vals m := by
  intro vals
  induction vals with
  | nil => intro m; rfl
  | cons q rest ih =>
      obtain ⟨i, vw⟩ := q
      intro m
      rw [fetch_checkpoint_loop]
      conv_rhs => rw [fetch_checkpoint_loop]
      by_cases hv : vw.validator = v
      · have hmask : maskFetch fetchCp v index vw.validator index = none := by
          simp [maskFetch, hv]
        have horig : fetchCp vw.validator index = some sc := by
          rw [hv]; exact hf
        simp only [hmask, horig]
        rcases hskip with hsk | ⟨a, ha, hav⟩
        · rw [if_pos hsk]
          exact ih m
        · by_cases hidx : sc.index ≠ index
          · rw [if_pos hidx]
            exact ih m
          · rw [if_neg hidx]
            simp only [ha]
            rw [if_pos (by rw [hv]; exact hav)]
            exact ih m
      · have hmask : maskFetch fetchCp v index vw.validator index
            = fetchCp vw.validator index := by
          simp [maskFetch, hv]
        rw [hmask]
        rcases hfc : fetchCp vw.validator index with _ | sc2
        · simp only [hfc]
          exact ih m
        · simp only [hfc]
          by_cases hidx : sc2.index ≠ index
          · rw [if_pos hidx, if_pos hidx]
            exact ih m
          · rw [if_neg hidx, if_neg hidx]
            rcases hrec : sc2.recovered with _ | signer
            · simp only [hrec]
            · simp only [hrec]
              by_cases hsig : signer ≠ vw.validator
              · rw [if_pos hsig, if_pos hsig]
                exact ih m
              · rw [if_neg hsig, if_neg hsig]
                by_cases hthr : (lookupGroup
                    (updateGroup m sc2.root ⟨sc2, vw.weight, i⟩)
                    sc2.root).cumulative_weight ≥ threshold
                · rw [if_pos hthr, if_pos hthr]
                · rw [if_neg hthr, if_neg hthr]
                  exact ih _

/-- **C3.** Every `MultisigSignedCheckpoint` returned by `fetch_checkpoint`
at index `i` contains only signatures that recover to a declared validator's
address and whose signed checkpoint is for index `i` and one common root (the
returned checkpoint's); the cumulative weight of the included validators is
at least the threshold weight; the signatures are ordered ascending by the
validator's position (ism-index) in the declared validator set; and a
signature recovering to a non-declared address, or for a different index, is
skipped without error (the result equals the one with that validator's
response masked out). -/
theorem multisig_fetch_checkpoint_quorum (fetchCp : Nat → Nat → Option SignedCp)
    (wv : List ValidatorWithWeight) (threshold index : Nat) :
    (∀ mc, multisig_fetch_checkpoint fetchCp wv threshold index = .ok (some mc) →
      mc.index = index
      ∧ (∀ e ∈ mc.entries,
          e.signed_checkpoint.index = index
          ∧ e.signed_checkpoint.root = mc.root
          ∧ ∃ vw, wv.get? e.ism_index = some vw
              ∧ e.signed_checkpoint.recovered = some vw.validator
              ∧ e.weight = vw.weight)
      ∧ threshold ≤ (mc.entries.map SigEntry.weight).sum
      ∧ mc.entries.Pairwise (fun a b => a.ism_index ≤ b.ism_index))
    ∧ (∀ v sc, fetchCp v index = some sc →
        (sc.index ≠ index ∨ ∃ a, sc.recovered = some a ∧ a ≠ v) →
        multisig_fetch_checkpoint fetchCp wv threshold index
          = multisig_fetch_checkpoint (maskFetch fetchCp v index) wv threshold index) := by
  constructor
  · intro mc h
    have hprops := fetch_checkpoint_loop_ok fetchCp index threshold wv
      (sortValidatorsByWeightDesc wv) []
      (fun p hp => sortValidatorsByWeightDesc_mem hp)
      (fun p hp => absurd hp (List.not_mem_nil p)) mc h
    exact ⟨hprops.1, fun e he => hprops.2.1 e he, hprops.2.2.1, hprops.2.2.2⟩
  · intro v sc hf hsk
    exact fetch_checkpoint_loop_skip fetchCp index threshold v sc hf hsk
      (sortValidatorsByWeightDesc wv) []

/-- Concrete validator set for the C3 witness: validator 100 with weight 1,
validator 200 with weight 2. -/
def wv3 : List ValidatorWithWeight := [⟨100, 1⟩, ⟨200, 2⟩]

/-- Concrete stores for the C3 witness: both validators signed root 7 at
index 3. -/
def fetch3 : Nat → Nat → Option SignedCp := fun a _ =>
  if a = 100 then some ⟨3, 7, some 100, 21⟩
  else if a = 200 then some ⟨3, 7, some 200, 22⟩
  else none

/-- The multisig checkpoint the C3 witness run produces. -/
def mc3 : MultisigSignedCheckpoint :=
  { index := 3, root := 7
    entries := [⟨⟨3, 7, some 100, 21⟩, 1, 0⟩, ⟨⟨3, 7, some 200, 22⟩, 2, 1⟩] }

/-- Stores for the skip half of the C3 witness: validator 300's signature
recovers to 999, not 300. -/
def fetch3bad : Nat → Nat → Option SignedCp := fun a _ =>
  if a = 300 then some ⟨3, 7, some 999, 23⟩ else fetch3 a 3

/-- Witness for C3: the concrete quorum run returns `mc3`, whose entries all
carry index 3 and root 7, recover to the declared validators at their
positions, weigh 3 ≥ threshold 3, and are sorted by ism-index; and masking
the mis-recovering validator 300 leaves the result unchanged. -/
theorem multisig_fetch_checkpoint_quorum_witness :
    multisig_fetch_checkpoint fetch3 wv3 3 3 = .ok (some mc3)
    ∧ mc3.index = 3
    ∧ (∀ e ∈ mc3.entries,
        e.signed_checkpoint.index = 3
        ∧ e.signed_checkpoint.root = mc3.root
        ∧ ∃ vw, wv3.get? e.ism_index = some vw
            ∧ e.signed_checkpoint.recovered = some vw.validator
            ∧ e.weight = vw.weight)
    ∧ 3 ≤ (mc3.entries.map SigEntry.weight).sum
    ∧ mc3.entries.Pairwise (fun a b => a.ism_index ≤ b.ism_index)
    ∧ multisig_fetch_checkpoint fetch3bad (⟨300, 5⟩ :: wv3) 3 3
        = multisig_fetch_checkpoint (maskFetch fetch3bad 300 3) (⟨300, 5⟩ :: wv3) 3 3 := by
  have hrun : multisig_fetch_checkpoint fetch3 wv3 3 3 = .ok (some mc3) := by rfl
  have h1 := (multisig_fetch_checkpoint_quorum fetch3 wv3 3 3).1 mc3 hrun
  have h2 := (multisig_fetch_checkpoint_quorum fetch3bad (⟨300, 5⟩ :: wv3) 3 3).2
    300 ⟨3, 7, some 999, 23⟩ rfl (Or.inr ⟨999, rfl, by decide⟩)
  exact ⟨hrun, h1.1, h1.2.1, h1.2.2.1, h1.2.2.2, h2⟩

end Hyperlane
